import Mathlib

/-!
Verification of the GeoArrow Python core against its specification.

The repository's distributed sources are documentation, CI configuration and
README notebooks; the library modules themselves (the type algebra in
the types package and the coercion/codec layer in the pyarrow package) are not
present.  Every definition below is therefore modelled from the spec
(sections 3, 4.1-4.4, 7, 8 of the design document), anchored to the concrete
behaviour shown in the repository READMEs (the TypeSpec.common example, the
as_geoarrow examples, and the geobuffers/from_geobuffers examples).
-/

namespace GeoArrow

/-- Modelled from the spec: missing module is the type-algebra enums of the
types package.  GeometryKind enumerates the seven geometry kinds; the extra
member `geometry` is the distinguished "mixed / any geometry" marker that the
spec's common-type resolution needs when "no native geometry kind covers all
inputs" (so that inference can later fall back to WKB). -/
inductive GeometryKind
  | geometry
  | point
  | linestring
  | polygon
  | multipoint
  | multilinestring
  | multipolygon
  | geometrycollection
deriving DecidableEq, Repr, Fintype

/-- Modelled from the spec: Dimensions enumerates which spatial/measure axes
are present (XY, XYZ, XYM, XYZM); the field-level "unset" state is carried by
Option at the TypeSpec level. -/
inductive Dimensions
  | xy
  | xyz
  | xym
  | xyzm
deriving DecidableEq, Repr, Fintype

/-- Modelled from the spec: coordinate layout, SEPARATED (one buffer per axis)
or INTERLEAVED (one buffer of tuples). -/
inductive CoordType
  | separated
  | interleaved
deriving DecidableEq, Repr, Fintype

/-- Modelled from the spec: serialization encoding; large variants use 64-bit
offsets instead of 32-bit. -/
inductive Encoding
  | geoarrow
  | wkt
  | wkb
  | large_wkt
  | large_wkb
deriving DecidableEq, Repr, Fintype

/-- Modelled from the spec: edge interpretation between vertices. -/
inductive EdgeType
  | planar
  | spherical
deriving DecidableEq, Repr, Fintype

/-- Modelled from the spec: an opaque CRS descriptor compared structurally by
its serialized definition. -/
structure Crs where
  definition : String
deriving DecidableEq, Repr

/-- Modelled from the spec: the core TypeSpec entity, an immutable tuple of
six optional fields where an unset field is a wildcard. -/
structure TypeSpec where
  kind : Option GeometryKind
  dims : Option Dimensions
  coordType : Option CoordType
  encoding : Option Encoding
  edgeType : Option EdgeType
  crs : Option Crs
deriving DecidableEq, Repr

/-- The fully-unset TypeSpec (every field a wildcard). -/
def TypeSpec.unspecified : TypeSpec :=
  ⟨none, none, none, none, none, none⟩

/-- Modelled from the spec: a TypeSpec with all fields set is a concrete type. -/
def TypeSpec.isConcrete (s : TypeSpec) : Bool :=
  s.kind.isSome && s.dims.isSome && s.coordType.isSome && s.encoding.isSome &&
    s.edgeType.isSome && s.crs.isSome

/-- Modelled from the spec: unification of two geometry kinds.  A single-part
kind is covered by its multi-part counterpart; otherwise distinct kinds have
no covering native kind and unify to the mixed marker `geometry`. -/
def GeometryKind.join : GeometryKind → GeometryKind → GeometryKind
  | .point, .multipoint => .multipoint
  | .multipoint, .point => .multipoint
  | .linestring, .multilinestring => .multilinestring
  | .multilinestring, .linestring => .multilinestring
  | .polygon, .multipolygon => .multipolygon
  | .multipolygon, .polygon => .multipolygon
  | a, b => if a = b then a else .geometry

/-- Does this dimension set include a Z axis? -/
def Dimensions.hasZ : Dimensions → Bool
  | .xyz => true
  | .xyzm => true
  | _ => false

/-- Does this dimension set include an M axis? -/
def Dimensions.hasM : Dimensions → Bool
  | .xym => true
  | .xyzm => true
  | _ => false

/-- Build a dimension set from the presence of the Z and M axes. -/
def Dimensions.ofZM : Bool → Bool → Dimensions
  | false, false => .xy
  | true, false => .xyz
  | false, true => .xym
  | true, true => .xyzm

/-- Modelled from the spec: dimensions unify by promoting to the union of the
axes present in the inputs. -/
def Dimensions.join (a b : Dimensions) : Dimensions :=
  Dimensions.ofZM (a.hasZ || b.hasZ) (a.hasM || b.hasM)

/-- Modelled from the spec: either coordinate layout represents every logical
value, so unification of distinct layouts deterministically selects
INTERLEAVED; the spec leaves this choice to the implementation. -/
def CoordType.join : CoordType → CoordType → CoordType
  | .separated, .separated => .separated
  | _, _ => .interleaved

/-- Is this a large-offset (64-bit) serialized encoding? -/
def Encoding.isLarge : Encoding → Bool
  | .large_wkt => true
  | .large_wkb => true
  | _ => false

/-- Is this a binary serialized encoding? -/
def Encoding.isBinary : Encoding → Bool
  | .wkb => true
  | .large_wkb => true
  | _ => false

/-- Build a serialized encoding from its binary and large flags. -/
def Encoding.ofFlags : Bool → Bool → Encoding
  | false, false => .wkt
  | true, false => .wkb
  | false, true => .large_wkt
  | true, true => .large_wkb

/-- Modelled from the spec: encodings unify to the most general serialization
capable of expressing all inputs; the native layout is the least element and
binary/large serializations absorb text/small ones. -/
def Encoding.join : Encoding → Encoding → Encoding
  | .geoarrow, e => e
  | e, .geoarrow => e
  | a, b => Encoding.ofFlags (a.isBinary || b.isBinary) (a.isLarge || b.isLarge)

/-- A TypeSpec field during unification: unset wildcard, a set value, or the
contradiction marker produced by two irreconcilable set values. -/
inductive CField (α : Type) where
  | unset : CField α
  | val : α → CField α
  | conflict : CField α
deriving DecidableEq, Repr

/-- Modelled from the spec: unset fields participate in common as "no
constraint"; two set values of a field with no promotion rule (edge type,
CRS) must agree, otherwise the unification is contradictory. -/
def CField.joinEq {α : Type} [DecidableEq α] : CField α → CField α → CField α
  | .unset, b => b
  | a, .unset => a
  | .conflict, _ => .conflict
  | _, .conflict => .conflict
  | .val a, .val b => if a = b then .val a else .conflict

/-- Lift a total join on values to optional (possibly unset) fields. -/
def optJoin {α : Type} (j : α → α → α) : Option α → Option α → Option α
  | none, b => b
  | some a, none => some a
  | some a, some b => some (j a b)

/-- Internal state of the common-type fold: the four promotable fields keep
Option values, the two agreement-only fields track contradictions. -/
structure ESpec where
  kind : Option GeometryKind
  dims : Option Dimensions
  coordType : Option CoordType
  encoding : Option Encoding
  edgeType : CField EdgeType
  crs : CField Crs
deriving DecidableEq, Repr

/-- The neutral element of the common-type fold. -/
def ESpec.bot : ESpec :=
  ⟨none, none, none, none, .unset, .unset⟩

/-- Fieldwise unification of two fold states. -/
def ESpec.join (a b : ESpec) : ESpec :=
  ⟨optJoin GeometryKind.join a.kind b.kind,
   optJoin Dimensions.join a.dims b.dims,
   optJoin CoordType.join a.coordType b.coordType,
   optJoin Encoding.join a.encoding b.encoding,
   CField.joinEq a.edgeType b.edgeType,
   CField.joinEq a.crs b.crs⟩

/-- View a TypeSpec as a fold state. -/
def TypeSpec.toE (s : TypeSpec) : ESpec :=
  ⟨s.kind, s.dims, s.coordType, s.encoding,
   match s.edgeType with | none => .unset | some e => .val e,
   match s.crs with | none => .unset | some c => .val c⟩

/-- Read an agreement field back out of the fold state; none on conflict. -/
def CField.toOpt {α : Type} : CField α → Option (Option α)
  | .unset => some none
  | .val a => some (some a)
  | .conflict => none

/-- Read a fold state back as a TypeSpec; none when the unification was
contradictory (spec: a common call producing a contradictory result is a
TypeInferenceError). -/
def ESpec.toSpec (e : ESpec) : Option TypeSpec :=
  match e.edgeType.toOpt, e.crs.toOpt with
  | some et, some c => some ⟨e.kind, e.dims, e.coordType, e.encoding, et, c⟩
  | _, _ => none

/-- Modelled from the spec: deterministic unification of two TypeSpecs
(section 4.1); none signals a contradictory combination. -/
def TypeSpec.common2 (a b : TypeSpec) : Option TypeSpec :=
  (ESpec.join a.toE b.toE).toSpec

/-- Modelled from the spec: common over a finite list of TypeSpecs, the fold
of pairwise unification starting from the fully-unset TypeSpec. -/
def TypeSpec.commonList (l : List TypeSpec) : Option TypeSpec :=
  (l.foldl (fun e s => ESpec.join e s.toE) ESpec.bot).toSpec

/-- A vertex: the coordinate scalars of one point, one scalar per axis.
Modelled from the spec: coordinate scalars are double-precision values; the
model represents each scalar by its 64-bit pattern (a natural number below
two to the 64), which WKB stores verbatim as eight bytes and which lossless
WKT numeral formatting must reproduce exactly. -/
abbrev Vert := List Nat

/-- Modelled from the spec: the shared nested intermediate form of geometry
values that the codec converts between encodings (nesting depth 0 for POINT,
1 for LINESTRING/MULTIPOINT, 2 for POLYGON/MULTILINESTRING, 3 for
MULTIPOLYGON, heterogeneous sequence for GEOMETRYCOLLECTION; a point is
optionally EMPTY). -/
inductive Geom where
  | point : Option Vert → Geom
  | linestring : List Vert → Geom
  | polygon : List (List Vert) → Geom
  | multipoint : List Vert → Geom
  | multilinestring : List (List Vert) → Geom
  | multipolygon : List (List (List Vert)) → Geom
  | collection : List Geom → Geom

/-- The geometry kind of a nested geometry value. -/
def Geom.kindOf : Geom → GeometryKind
  | .point _ => .point
  | .linestring _ => .linestring
  | .polygon _ => .polygon
  | .multipoint _ => .multipoint
  | .multilinestring _ => .multilinestring
  | .multipolygon _ => .multipolygon
  | .collection _ => .geometrycollection

/-- Number of coordinate scalars per vertex for each dimension set. -/
def dimCount : Dimensions → Nat
  | .xy => 2
  | .xyz => 3
  | .xym => 3
  | .xyzm => 4

/-- The 64-bit pattern of the quiet-NaN "unset" sentinel used for coordinates
that are not present (the spec requires absent axes to be filled with an
implementation-defined unset sentinel, never zero). -/
def nanPattern : Nat := 0x7ff8000000000000

/-- The all-sentinel vertex that encodes an empty point in WKB. -/
def sentinelVert (d : Dimensions) : Vert :=
  List.replicate (dimCount d) nanPattern

/-- A well-formed vertex: correct arity and every scalar a 64-bit pattern. -/
def vertOk (d : Dimensions) (v : Vert) : Bool :=
  v.length = dimCount d && v.all (fun x => x < 2 ^ 64)

/-- A vertex that may travel as a point body inside WKB: well-formed and not
the all-sentinel pattern (which WKB cannot distinguish from an empty point). -/
def pointVertOk (d : Dimensions) (v : Vert) : Bool :=
  vertOk d v && !(v == sentinelVert d)

/-- A well-formed ring or line within a two-level geometry: nonempty (the WKT
grammar cannot express an empty inner list) with well-formed vertices. -/
def ringOk (d : Dimensions) (r : List Vert) : Bool :=
  !r.isEmpty && r.all (vertOk d)

/-- A list small enough for a 32-bit WKB count field. -/
def cntOk {α : Type} (l : List α) : Bool :=
  decide (l.length < 2 ^ 32)

mutual

/-- Validity of a geometry value under a dimension set: correct coordinate
arity everywhere, 64-bit coordinate patterns, nonempty inner lists small
enough for 32-bit counts, and no all-sentinel point vertex. -/
def validG (d : Dimensions) : Geom → Bool
  | .point none => true
  | .point (some v) => pointVertOk d v
  | .linestring vs => cntOk vs && vs.all (vertOk d)
  | .polygon rs => cntOk rs && rs.all (fun r => cntOk r && ringOk d r)
  | .multipoint vs => cntOk vs && vs.all (pointVertOk d)
  | .multilinestring ls => cntOk ls && ls.all (fun r => cntOk r && ringOk d r)
  | .multipolygon ps =>
      cntOk ps && ps.all (fun p =>
        cntOk p && (!p.isEmpty && p.all (fun r => cntOk r && ringOk d r)))
  | .collection gs => cntOk gs && validGList d gs

/-- Validity of a list of sub-geometries. -/
def validGList (d : Dimensions) : List Geom → Bool
  | [] => true
  | g :: gs => validG d g && validGList d gs

end

/-- WKT tokens: parentheses, comma, bare words, and numerals. -/
inductive Tok where
  | lp : Tok
  | rp : Tok
  | comma : Tok
  | word : String → Tok
  | num : Nat → Tok
deriving DecidableEq, Repr

/-- Decimal digit characters of a numeral, most significant first. -/
def natChars (n : Nat) : List Char :=
  if n = 0 then ['0'] else ((Nat.digits 10 n).map Nat.digitChar).reverse

/-- Numeric value of a run of decimal digit characters. -/
def digitsVal (cs : List Char) : Nat :=
  cs.foldl (fun a c => a * 10 + (c.toNat - 48)) 0

/-- Characters of one token. -/
def tokChars : Tok → List Char
  | .lp => ['(']
  | .rp => [')']
  | .comma => [',']
  | .word s => s.data
  | .num n => natChars n

/-- Render a token stream as text, one space after every token (the WKT
grammar treats whitespace as insignificant separation). -/
def renderToks (ts : List Tok) : List Char :=
  (ts.map (fun t => tokChars t ++ [' '])).flatten

/-- Characters accepted inside a keyword. -/
def isWordChar (c : Char) : Bool := c.isAlpha

/-- Accumulate a decimal numeral from the head of the input. -/
def lexNum (acc : Nat) : List Char → Nat × List Char
  | [] => (acc, [])
  | c :: cs =>
    if c.isDigit then lexNum (acc * 10 + (c.toNat - 48)) cs else (acc, c :: cs)

/-- Accumulate a keyword from the head of the input. -/
def lexWord (acc : List Char) : List Char → List Char × List Char
  | [] => (acc.reverse, [])
  | c :: cs =>
    if isWordChar c then lexWord (c :: acc) cs else (acc.reverse, c :: cs)

/-- Modelled from the spec: the WKT tokenizer (case kept, whitespace
insignificant); fuel bounds the recursion and one unit per consumed character
always suffices.  Unknown characters make the whole lex fail. -/
def lexGo : Nat → List Char → Option (List Tok)
  | 0, _ => none
  | _ + 1, [] => some []
  | fuel + 1, c :: cs =>
    if c = ' ' then lexGo fuel cs
    else if c = '(' then (lexGo fuel cs).map (fun ts => .lp :: ts)
    else if c = ')' then (lexGo fuel cs).map (fun ts => .rp :: ts)
    else if c = ',' then (lexGo fuel cs).map (fun ts => .comma :: ts)
    else if c.isDigit then
      let r := lexNum (c.toNat - 48) cs
      (lexGo fuel r.2).map (fun ts => .num r.1 :: ts)
    else if isWordChar c then
      let r := lexWord [c] cs
      (lexGo fuel r.2).map (fun ts => .word (String.mk r.1) :: ts)
    else none

/-- Tokenize a character list. -/
def lexChars (l : List Char) : Option (List Tok) :=
  lexGo (l.length + 1) l

/-- Uppercase a word (the WKT grammar is keyword case-insensitive). -/
def upWord (s : String) : String :=
  String.mk (s.data.map Char.toUpper)

/-- WKT keyword of a geometry kind. -/
def kindWord : GeometryKind → String
  | .geometry => "GEOMETRY"
  | .point => "POINT"
  | .linestring => "LINESTRING"
  | .polygon => "POLYGON"
  | .multipoint => "MULTIPOINT"
  | .multilinestring => "MULTILINESTRING"
  | .multipolygon => "MULTIPOLYGON"
  | .geometrycollection => "GEOMETRYCOLLECTION"

/-- The WKT dimensionality tag following the keyword (empty for XY). -/
def dimsToks : Dimensions → List Tok
  | .xy => []
  | .xyz => [.word "Z"]
  | .xym => [.word "M"]
  | .xyzm => [.word "ZM"]

/-- Tokens of one vertex: its coordinates in axis order. -/
def vertToks (v : Vert) : List Tok :=
  v.map .num

/-- Interleave a comma token between the token runs of consecutive elements. -/
def commaJoin : List (List Tok) → List Tok
  | [] => []
  | x :: xs => x ++ (xs.map (fun y => Tok.comma :: y)).flatten

/-- Wrap a token run in parentheses. -/
def parenGroup (inner : List Tok) : List Tok :=
  .lp :: (inner ++ [.rp])

/-- Tokens of a vertex list (one nesting level). -/
def vertsToks (vs : List Vert) : List Tok :=
  parenGroup (commaJoin (vs.map vertToks))

/-- Tokens of a ring list (two nesting levels). -/
def ringsToks (rs : List (List Vert)) : List Tok :=
  parenGroup (commaJoin (rs.map vertsToks))

/-- Tokens of a polygon list (three nesting levels). -/
def polysToks (ps : List (List (List Vert))) : List Tok :=
  parenGroup (commaJoin (ps.map ringsToks))

/-- Tokens of a multipoint body: each member vertex individually
parenthesized. -/
def mpointToks (vs : List Vert) : List Tok :=
  parenGroup (commaJoin (vs.map (fun v => parenGroup (vertToks v))))

mutual

/-- Modelled from the spec: the WKT serializer, producing the token stream
KIND [Z|M|ZM] ( nested coordinate lists ) with EMPTY for zero-length
geometries. -/
def wktToks (d : Dimensions) : Geom → List Tok
  | .point none => .word "POINT" :: (dimsToks d ++ [.word "EMPTY"])
  | .point (some v) => .word "POINT" :: (dimsToks d ++ parenGroup (vertToks v))
  | .linestring [] => .word "LINESTRING" :: (dimsToks d ++ [.word "EMPTY"])
  | .linestring vs => .word "LINESTRING" :: (dimsToks d ++ vertsToks vs)
  | .polygon [] => .word "POLYGON" :: (dimsToks d ++ [.word "EMPTY"])
  | .polygon rs => .word "POLYGON" :: (dimsToks d ++ ringsToks rs)
  | .multipoint [] => .word "MULTIPOINT" :: (dimsToks d ++ [.word "EMPTY"])
  | .multipoint vs => .word "MULTIPOINT" :: (dimsToks d ++ mpointToks vs)
  | .multilinestring [] => .word "MULTILINESTRING" :: (dimsToks d ++ [.word "EMPTY"])
  | .multilinestring ls => .word "MULTILINESTRING" :: (dimsToks d ++ ringsToks ls)
  | .multipolygon [] => .word "MULTIPOLYGON" :: (dimsToks d ++ [.word "EMPTY"])
  | .multipolygon ps => .word "MULTIPOLYGON" :: (dimsToks d ++ polysToks ps)
  | .collection [] => .word "GEOMETRYCOLLECTION" :: (dimsToks d ++ [.word "EMPTY"])
  | .collection gs =>
      .word "GEOMETRYCOLLECTION" :: (dimsToks d ++ parenGroup (commaJoin (wktToksList d gs)))

/-- Token runs of a list of sub-geometries. -/
def wktToksList (d : Dimensions) : List Geom → List (List Tok)
  | [] => []
  | g :: gs => wktToks d g :: wktToksList d gs

end

/-- Serialize a geometry to WKT text. -/
def serializeWkt (d : Dimensions) (g : Geom) : String :=
  String.mk (renderToks (wktToks d g))

/-- Modelled from the spec: the ParseError kind raised by malformed WKT/WKB
input, tagged by failure category. -/
inductive ParseErr where
  | unexpectedEnd : ParseErr
  | badKeyword : ParseErr
  | badToken : ParseErr
  | arity : ParseErr
  | trailing : ParseErr
  | truncated : ParseErr
  | badCode : ParseErr
  | depth : ParseErr
deriving DecidableEq, Repr

/-- Parse exactly the given number of numerals into one vertex. -/
def pVert : Nat → List Tok → Except ParseErr (Vert × List Tok)
  | 0, ts => .ok ([], ts)
  | k + 1, .num n :: ts =>
    match pVert k ts with
    | .ok (v, r) => .ok (n :: v, r)
    | .error e => .error e
  | _ + 1, _ => .error .arity

/-- Parse the remaining comma-separated elements of a parenthesized list up
to and through the closing parenthesis. -/
def pSepTail {α : Type} (pe : List Tok → Except ParseErr (α × List Tok)) :
    Nat → List Tok → Except ParseErr (List α × List Tok)
  | _, .rp :: ts => .ok ([], ts)
  | fuel + 1, .comma :: ts =>
    match pe ts with
    | .ok (x, r) =>
      match pSepTail pe fuel r with
      | .ok (xs, r2) => .ok (x :: xs, r2)
      | .error e => .error e
    | .error e => .error e
  | 0, _ => .error .depth
  | _ + 1, _ => .error .badToken

/-- Parse a nonempty parenthesized comma-separated list. -/
def pGroup {α : Type} (pe : List Tok → Except ParseErr (α × List Tok))
    (fuel : Nat) : List Tok → Except ParseErr (List α × List Tok)
  | .lp :: ts =>
    match pe ts with
    | .ok (x, r) =>
      match pSepTail pe fuel r with
      | .ok (xs, r2) => .ok (x :: xs, r2)
      | .error e => .error e
    | .error e => .error e
  | [] => .error .unexpectedEnd
  | _ => .error .badToken

/-- Parse one parenthesized vertex (a multipoint member). -/
def pParenVert (dn : Nat) : List Tok → Except ParseErr (Vert × List Tok)
  | .lp :: ts =>
    match pVert dn ts with
    | .ok (v, .rp :: r) => .ok (v, r)
    | .ok _ => .error .badToken
    | .error e => .error e
  | [] => .error .unexpectedEnd
  | _ => .error .badToken

/-- Read the optional dimensionality tag after the geometry keyword. -/
def pDims : List Tok → Dimensions × List Tok
  | .word w :: ts =>
    let u := upWord w
    if u = "Z" then (.xyz, ts)
    else if u = "M" then (.xym, ts)
    else if u = "ZM" then (.xyzm, ts)
    else (.xy, .word w :: ts)
  | ts => (.xy, ts)

/-- Recognize the EMPTY keyword, returning the rest of the input. -/
def pEmpty : List Tok → Option (List Tok)
  | .word w :: ts => if upWord w = "EMPTY" then some ts else none
  | _ => none

/-- Parse a point body: EMPTY or a single parenthesized vertex. -/
def pPointBody (dn : Nat) : List Tok → Except ParseErr (Option Vert × List Tok)
  | .word w :: ts =>
    if upWord w = "EMPTY" then .ok (none, ts) else .error .badKeyword
  | .lp :: ts =>
    match pVert dn ts with
    | .ok (v, .rp :: r) => .ok (some v, r)
    | .ok (_, []) => .error .unexpectedEnd
    | .ok _ => .error .badToken
    | .error e => .error e
  | [] => .error .unexpectedEnd
  | _ => .error .badToken

/-- Check that a sub-geometry carries the dimensionality of its enclosing
collection. -/
def pChild (pG : List Tok → Except ParseErr ((Dimensions × Geom) × List Tok))
    (d : Dimensions) (ts : List Tok) : Except ParseErr (Geom × List Tok) :=
  match pG ts with
  | .ok ((dc, g), r) => if dc = d then .ok (g, r) else .error .arity
  | .error e => .error e

/-- Modelled from the spec: the WKT grammar parser over tokens.  The keyword
selects the kind, the optional tag selects the dimensions and hence the
required coordinate arity, and the nesting depth of parenthesized lists
matches the kind; fuel bounds the recursion (one unit per remaining token
always suffices). -/
def pGeom : Nat → List Tok → Except ParseErr ((Dimensions × Geom) × List Tok)
  | _ + 1, [] => .error .unexpectedEnd
  | fuel + 1, .word w :: ts =>
    let u := upWord w
    let p := pDims ts
    let d := p.1
    let ts1 := p.2
    let dn := dimCount d
    if u = "POINT" then
      match pPointBody dn ts1 with
      | .ok (v, r) => .ok ((d, .point v), r)
      | .error e => .error e
    else if u = "LINESTRING" then
      match pEmpty ts1 with
      | some r => .ok ((d, .linestring []), r)
      | none =>
        match pGroup (pVert dn) fuel ts1 with
        | .ok (vs, r) => .ok ((d, .linestring vs), r)
        | .error e => .error e
    else if u = "POLYGON" then
      match pEmpty ts1 with
      | some r => .ok ((d, .polygon []), r)
      | none =>
        match pGroup (pGroup (pVert dn) fuel) fuel ts1 with
        | .ok (rs, r) => .ok ((d, .polygon rs), r)
        | .error e => .error e
    else if u = "MULTIPOINT" then
      match pEmpty ts1 with
      | some r => .ok ((d, .multipoint []), r)
      | none =>
        match pGroup (pParenVert dn) fuel ts1 with
        | .ok (vs, r) => .ok ((d, .multipoint vs), r)
        | .error e => .error e
    else if u = "MULTILINESTRING" then
      match pEmpty ts1 with
      | some r => .ok ((d, .multilinestring []), r)
      | none =>
        match pGroup (pGroup (pVert dn) fuel) fuel ts1 with
        | .ok (ls, r) => .ok ((d, .multilinestring ls), r)
        | .error e => .error e
    else if u = "MULTIPOLYGON" then
      match pEmpty ts1 with
      | some r => .ok ((d, .multipolygon []), r)
      | none =>
        match pGroup (pGroup (pGroup (pVert dn) fuel) fuel) fuel ts1 with
        | .ok (ps, r) => .ok ((d, .multipolygon ps), r)
        | .error e => .error e
    else if u = "GEOMETRYCOLLECTION" then
      match pEmpty ts1 with
      | some r => .ok ((d, .collection []), r)
      | none =>
        match pGroup (pChild (pGeom fuel) d) fuel ts1 with
        | .ok (gs, r) => .ok ((d, .collection gs), r)
        | .error e => .error e
    else .error .badKeyword
  | _ + 1, _ => .error .badKeyword
  | 0, _ => .error .depth

/-- Parse a whole token stream as one geometry; trailing tokens fail the
parse. -/
def parseWktToks (ts : List Tok) : Except ParseErr (GeometryKind × Dimensions × Geom) :=
  match pGeom (ts.length + 1) ts with
  | .ok ((d, g), []) => .ok (g.kindOf, d, g)
  | .ok (_, _ :: _) => .error .trailing
  | .error e => .error e

/-- Modelled from the spec: parse WKT text into the nested intermediate form,
returning the geometry kind, the dimensions and the nested data. -/
def parseWkt (s : String) : Except ParseErr (GeometryKind × Dimensions × Geom) :=
  match lexChars s.data with
  | some ts => parseWktToks ts
  | none => .error .badToken

/-- A byte stream: each element is one byte value below 256. -/
abbrev Bytes := List Nat

/-- Little-endian four-byte encoding of a 32-bit value. -/
def u32le (n : Nat) : Bytes :=
  [n % 256, n / 256 % 256, n / 65536 % 256, n / 16777216 % 256]

/-- Little-endian eight-byte encoding of a 64-bit value. -/
def u64le (n : Nat) : Bytes :=
  [n % 256, n / 256 % 256, n / 65536 % 256, n / 16777216 % 256,
   n / 4294967296 % 256, n / 1099511627776 % 256,
   n / 281474976710656 % 256, n / 72057594037927936 % 256]

/-- Assemble bytes little-endian into a value. -/
def asmLE : List Nat → Nat
  | [] => 0
  | b :: bs => b + 256 * asmLE bs

/-- WKB base code of a geometry kind. -/
def kindCode : GeometryKind → Nat
  | .geometry => 0
  | .point => 1
  | .linestring => 2
  | .polygon => 3
  | .multipoint => 4
  | .multilinestring => 5
  | .multipolygon => 6
  | .geometrycollection => 7

/-- ISO WKB dimensionality offset added to the base code. -/
def dimOffset : Dimensions → Nat
  | .xy => 0
  | .xyz => 1000
  | .xym => 2000
  | .xyzm => 3000

/-- ISO WKB geometry-type code: base kind code plus dimensionality offset. -/
def isoCode (k : GeometryKind) (d : Dimensions) : Nat :=
  kindCode k + dimOffset d

/-- Geometry kind of a WKB base code. -/
def codeKind : Nat → Option GeometryKind
  | 1 => some .point
  | 2 => some .linestring
  | 3 => some .polygon
  | 4 => some .multipoint
  | 5 => some .multilinestring
  | 6 => some .multipolygon
  | 7 => some .geometrycollection
  | _ => none

/-- Modelled from the spec: decode a WKB geometry-type code, detecting both
the ISO convention (1000/2000/3000 offsets) and the extended convention
(high-bit Z/M flags) on read. -/
def decodeCode (n : Nat) : Option (GeometryKind × Dimensions) :=
  if n / 2 ^ 30 % 4 ≠ 0 then
    (codeKind (n % 2 ^ 30)).map
      (fun k => (k, Dimensions.ofZM (n / 2 ^ 31 % 2 = 1) (n / 2 ^ 30 % 2 = 1)))
  else
    match n / 1000 with
    | 0 => (codeKind (n % 1000)).map (fun k => (k, Dimensions.xy))
    | 1 => (codeKind (n % 1000)).map (fun k => (k, Dimensions.xyz))
    | 2 => (codeKind (n % 1000)).map (fun k => (k, Dimensions.xym))
    | 3 => (codeKind (n % 1000)).map (fun k => (k, Dimensions.xyzm))
    | _ => none

/-- Bytes of one vertex: each scalar's 64-bit pattern, little-endian. -/
def vertBytes (v : Vert) : Bytes :=
  (v.map u64le).flatten

/-- Bytes of a counted vertex sequence. -/
def ringBytes (r : List Vert) : Bytes :=
  u32le r.length ++ (r.map vertBytes).flatten

/-- Bytes of a counted ring sequence (a polygon body). -/
def ringsBytes (rs : List (List Vert)) : Bytes :=
  u32le rs.length ++ (rs.map ringBytes).flatten

/-- WKB header emitted on write: little-endian flag and ISO type code. -/
def wkbHdr (k : GeometryKind) (d : Dimensions) : Bytes :=
  1 :: u32le (isoCode k d)

mutual

/-- Modelled from the spec: the WKB serializer (little-endian, ISO codes);
multi-part members and collection elements carry their own full headers, and
an empty point is written as all-sentinel coordinates. -/
def wkbBytes (d : Dimensions) : Geom → Bytes
  | .point none => wkbHdr .point d ++ vertBytes (sentinelVert d)
  | .point (some v) => wkbHdr .point d ++ vertBytes v
  | .linestring vs => wkbHdr .linestring d ++ ringBytes vs
  | .polygon rs => wkbHdr .polygon d ++ ringsBytes rs
  | .multipoint vs =>
      wkbHdr .multipoint d ++ u32le vs.length ++
        (vs.map (fun v => wkbHdr .point d ++ vertBytes v)).flatten
  | .multilinestring ls =>
      wkbHdr .multilinestring d ++ u32le ls.length ++
        (ls.map (fun l => wkbHdr .linestring d ++ ringBytes l)).flatten
  | .multipolygon ps =>
      wkbHdr .multipolygon d ++ u32le ps.length ++
        (ps.map (fun p => wkbHdr .polygon d ++ ringsBytes p)).flatten
  | .collection gs =>
      wkbHdr .geometrycollection d ++ u32le gs.length ++ (wkbList d gs).flatten

/-- WKB encodings of a list of sub-geometries. -/
def wkbList (d : Dimensions) : List Geom → List Bytes
  | [] => []
  | g :: gs => wkbBytes d g :: wkbList d gs

end

/-- Serialize a geometry to WKB bytes. -/
def serializeWkb (d : Dimensions) (g : Geom) : Bytes :=
  wkbBytes d g

/-- Read exactly the given number of bytes. -/
def rdN : Nat → Bytes → Except ParseErr (List Nat × Bytes)
  | 0, bs => .ok ([], bs)
  | k + 1, b :: bs =>
    match rdN k bs with
    | .ok (xs, r) => .ok (b :: xs, r)
    | .error e => .error e
  | _ + 1, [] => .error .truncated

/-- Read a 32-bit value with the given byte order (true for big-endian). -/
def rdU32 (big : Bool) (bs : Bytes) : Except ParseErr (Nat × Bytes) :=
  match rdN 4 bs with
  | .ok (xs, r) => .ok (asmLE (if big then xs.reverse else xs), r)
  | .error e => .error e

/-- Read a 64-bit value with the given byte order. -/
def rdU64 (big : Bool) (bs : Bytes) : Except ParseErr (Nat × Bytes) :=
  match rdN 8 bs with
  | .ok (xs, r) => .ok (asmLE (if big then xs.reverse else xs), r)
  | .error e => .error e

/-- Read one vertex of the given arity. -/
def rdVert (big : Bool) : Nat → Bytes → Except ParseErr (Vert × Bytes)
  | 0, bs => .ok ([], bs)
  | k + 1, bs =>
    match rdU64 big bs with
    | .ok (x, r) =>
      match rdVert big k r with
      | .ok (v, r2) => .ok (x :: v, r2)
      | .error e => .error e
    | .error e => .error e

/-- Read a counted vertex sequence. -/
def rdVerts (big : Bool) (dn : Nat) : Nat → Bytes → Except ParseErr (List Vert × Bytes)
  | 0, bs => .ok ([], bs)
  | n + 1, bs =>
    match rdVert big dn bs with
    | .ok (v, r) =>
      match rdVerts big dn n r with
      | .ok (vs, r2) => .ok (v :: vs, r2)
      | .error e => .error e
    | .error e => .error e

/-- Read a counted ring sequence: each ring is a count and its vertices. -/
def rdRings (big : Bool) (dn : Nat) : Nat → Bytes → Except ParseErr (List (List Vert) × Bytes)
  | 0, bs => .ok ([], bs)
  | n + 1, bs =>
    match rdU32 big bs with
    | .ok (c, r) =>
      match rdVerts big dn c r with
      | .ok (v, r2) =>
        match rdRings big dn n r2 with
        | .ok (vs, r3) => .ok (v :: vs, r3)
        | .error e => .error e
      | .error e => .error e
    | .error e => .error e

/-- Read one WKB header: byte-order flag and decoded type code. -/
def rdHdr (bs : Bytes) : Except ParseErr ((Bool × GeometryKind × Dimensions) × Bytes) :=
  match bs with
  | [] => .error .truncated
  | flag :: r =>
    if flag = 0 ∨ flag = 1 then
      match rdU32 (flag = 0) r with
      | .ok (code, r2) =>
        match decodeCode code with
        | some kd => .ok (((flag = 0), kd.1, kd.2), r2)
        | none => .error .badCode
      | .error e => .error e
    else .error .badCode

/-- Read a counted sequence of embedded point members (multipoint body);
an all-sentinel member cannot be represented and is rejected. -/
def rdMPoints (d : Dimensions) : Nat → Bytes → Except ParseErr (List Vert × Bytes)
  | 0, bs => .ok ([], bs)
  | n + 1, bs =>
    match rdHdr bs with
    | .ok ((bigc, k, dc), r) =>
      if k = .point ∧ dc = d then
        match rdVert bigc (dimCount d) r with
        | .ok (v, r2) =>
          if v == sentinelVert d then .error .badCode
          else
            match rdMPoints d n r2 with
            | .ok (vs, r3) => .ok (v :: vs, r3)
            | .error e => .error e
        | .error e => .error e
      else .error .badCode
    | .error e => .error e

/-- Read a counted sequence of embedded linestring members. -/
def rdMLines (d : Dimensions) : Nat → Bytes → Except ParseErr (List (List Vert) × Bytes)
  | 0, bs => .ok ([], bs)
  | n + 1, bs =>
    match rdHdr bs with
    | .ok ((bigc, k, dc), r) =>
      if k = .linestring ∧ dc = d then
        match rdU32 bigc r with
        | .ok (c, r2) =>
          match rdVerts bigc (dimCount d) c r2 with
          | .ok (v, r3) =>
            match rdMLines d n r3 with
            | .ok (vs, r4) => .ok (v :: vs, r4)
            | .error e => .error e
          | .error e => .error e
        | .error e => .error e
      else .error .badCode
    | .error e => .error e

/-- Read a counted sequence of embedded polygon members. -/
def rdMPolys (d : Dimensions) : Nat → Bytes → Except ParseErr (List (List (List Vert)) × Bytes)
  | 0, bs => .ok ([], bs)
  | n + 1, bs =>
    match rdHdr bs with
    | .ok ((bigc, k, dc), r) =>
      if k = .polygon ∧ dc = d then
        match rdU32 bigc r with
        | .ok (c, r2) =>
          match rdRings bigc (dimCount d) c r2 with
          | .ok (p, r3) =>
            match rdMPolys d n r3 with
            | .ok (ps, r4) => .ok (p :: ps, r4)
            | .error e => .error e
          | .error e => .error e
        | .error e => .error e
      else .error .badCode
    | .error e => .error e

mutual

/-- Modelled from the spec: the WKB parser.  It reads the endianness flag and
geometry code (accepting both ISO and extended dimensionality conventions and
either byte order), then the counted nested structure of the kind; fuel
bounds the recursion into collections and one unit per remaining byte always
suffices. -/
def pWkbGeom : Nat → Bytes → Except ParseErr ((Dimensions × Geom) × Bytes)
  | 0, _ => .error .depth
  | fuel + 1, bs =>
    match rdHdr bs with
    | .error e => .error e
    | .ok ((big, k, d), r) =>
      match k with
      | .point =>
        match rdVert big (dimCount d) r with
        | .ok (v, r2) =>
            .ok ((d, .point (if v == sentinelVert d then none else some v)), r2)
        | .error e => .error e
      | .linestring =>
        match rdU32 big r with
        | .ok (n, r2) =>
          match rdVerts big (dimCount d) n r2 with
          | .ok (vs, r3) => .ok ((d, .linestring vs), r3)
          | .error e => .error e
        | .error e => .error e
      | .polygon =>
        match rdU32 big r with
        | .ok (n, r2) =>
          match rdRings big (dimCount d) n r2 with
          | .ok (rs, r3) => .ok ((d, .polygon rs), r3)
          | .error e => .error e
        | .error e => .error e
      | .multipoint =>
        match rdU32 big r with
        | .ok (n, r2) =>
          match rdMPoints d n r2 with
          | .ok (vs, r3) => .ok ((d, .multipoint vs), r3)
          | .error e => .error e
        | .error e => .error e
      | .multilinestring =>
        match rdU32 big r with
        | .ok (n, r2) =>
          match rdMLines d n r2 with
          | .ok (ls, r3) => .ok ((d, .multilinestring ls), r3)
          | .error e => .error e
        | .error e => .error e
      | .multipolygon =>
        match rdU32 big r with
        | .ok (n, r2) =>
          match rdMPolys d n r2 with
          | .ok (ps, r3) => .ok ((d, .multipolygon ps), r3)
          | .error e => .error e
        | .error e => .error e
      | .geometrycollection =>
        match rdU32 big r with
        | .ok (n, r2) =>
          match rdGeoms fuel d n r2 with
          | .ok (gs, r3) => .ok ((d, .collection gs), r3)
          | .error e => .error e
        | .error e => .error e
      | .geometry => .error .badCode

/-- Read a counted sequence of arbitrary sub-geometries sharing the enclosing
dimensions. -/
def rdGeoms : Nat → Dimensions → Nat → Bytes → Except ParseErr (List Geom × Bytes)
  | _, _, 0, bs => .ok ([], bs)
  | 0, _, _ + 1, _ => .error .depth
  | fuel + 1, d, n + 1, bs =>
    match pWkbGeom fuel bs with
    | .ok ((dc, g), r) =>
      if dc = d then
        match rdGeoms fuel d n r with
        | .ok (gs, r2) => .ok (g :: gs, r2)
        | .error e => .error e
      else .error .badCode
    | .error e => .error e

end

/-- Modelled from the spec: parse WKB bytes into the nested intermediate
form, returning the geometry kind, the dimensions and the nested data;
trailing bytes fail the parse. -/
def parseWkb (bs : Bytes) : Except ParseErr (GeometryKind × Dimensions × Geom) :=
  match pWkbGeom (bs.length + 1) bs with
  | .ok ((d, g), []) => .ok (g.kindOf, d, g)
  | .ok (_, _ :: _) => .error .trailing
  | .error e => .error e

/-- Modelled from the spec: a raw input value accepted by inference and
coercion, either WKT text or WKB binary. -/
inductive InputValue where
  | text : String → InputValue
  | blob : Bytes → InputValue

/-- Parse one raw value through the codec for its encoding. -/
def parseInput : InputValue → Except ParseErr (GeometryKind × Dimensions × Geom)
  | .text s => parseWkt s
  | .blob bs => parseWkb bs

/-- Modelled from the spec: the TypeInferenceError kind (empty input with no
default, or a contradictory common), alongside propagated parse failures. -/
inductive InferErr where
  | emptyInput : InferErr
  | contradiction : InferErr
  | parse : ParseErr → InferErr
deriving DecidableEq, Repr

/-- Per-element partial TypeSpec carrying just the header fields (kind and
dimensions) read from a serialized value. -/
def headerSpec (kd : GeometryKind × Dimensions) : TypeSpec :=
  ⟨some kd.1, some kd.2, none, none, none, none⟩

/-- Kinds having a native GEOARROW nested-buffer layout (the layout rules
define shapes only for the six point/line/polygon kinds and their multis). -/
def nativeKind : GeometryKind → Bool
  | .point => true
  | .linestring => true
  | .polygon => true
  | .multipoint => true
  | .multilinestring => true
  | .multipolygon => true
  | _ => false

/-- Serialized size of one raw value. -/
def elemSize : InputValue → Nat
  | .text s => s.data.length
  | .blob bs => bs.length

/-- The small-offset size threshold: the largest 32-bit signed offset. -/
def offsetThreshold : Nat := 2147483647

/-- Does any individual value exceed the small-offset size threshold? -/
def anyLarge (vs : List InputValue) : Bool :=
  vs.any (fun v => offsetThreshold < elemSize v)

/-- Read the kind/dimensions headers of every raw value. -/
def parseHeaders : List InputValue → Except InferErr (List (GeometryKind × Dimensions))
  | [] => .ok []
  | v :: vs =>
    match parseInput v with
    | .error e => .error (.parse e)
    | .ok r =>
      match parseHeaders vs with
      | .ok rs => .ok ((r.1, r.2.1) :: rs)
      | .error e => .error e

/-- Fully parse every raw value. -/
def parseAll : List InputValue → Except InferErr (List (GeometryKind × Dimensions × Geom))
  | [] => .ok []
  | v :: vs =>
    match parseInput v with
    | .error e => .error (.parse e)
    | .ok r =>
      match parseAll vs with
      | .ok rs => .ok (r :: rs)
      | .error e => .error e

/-- Modelled from the spec: infer one covering TypeSpec for a batch of raw
values: read each element's kind/dimensions header, fold through common, then
resolve the encoding — the native layout when one native kind covers all
inputs, otherwise the deliberate fallback to WKB (LARGE_WKB when any single
value exceeds the small-offset threshold). -/
def inferCommon (vs : List InputValue) : Except InferErr TypeSpec :=
  match vs with
  | [] => .error .emptyInput
  | _ :: _ =>
    match parseHeaders vs with
    | .error e => .error e
    | .ok hs =>
      match TypeSpec.commonList (hs.map headerSpec) with
      | none => .error .contradiction
      | some c =>
        let k := c.kind.getD .geometry
        let d := c.dims.getD .xy
        if nativeKind k then
          .ok ⟨some k, some d, some .separated, some .geoarrow, c.edgeType, c.crs⟩
        else
          .ok ⟨some k, some d, none,
            some (if anyLarge vs then .large_wkb else .wkb), c.edgeType, c.crs⟩

/-- Read a coordinate scalar, the unset sentinel when absent. -/
def vertGet (v : Vert) (i : Nat) : Nat :=
  v.getD i nanPattern

/-- Modelled from the spec: promote one vertex between dimension sets,
filling absent Z/M axes with the unset sentinel, never zero. -/
def promoteVert (a b : Dimensions) (v : Vert) : Vert :=
  if a = b then v
  else
    [vertGet v 0, vertGet v 1] ++
      (if b.hasZ then [if a.hasZ then vertGet v 2 else nanPattern] else []) ++
      (if b.hasM then
        [if a.hasM then vertGet v (if a.hasZ then 3 else 2) else nanPattern]
       else [])

mutual

/-- Promote every vertex of a geometry between dimension sets. -/
def Geom.promote (a b : Dimensions) : Geom → Geom
  | .point none => .point none
  | .point (some v) => .point (some (promoteVert a b v))
  | .linestring vs => .linestring (vs.map (promoteVert a b))
  | .polygon rs => .polygon (rs.map (fun r => r.map (promoteVert a b)))
  | .multipoint vs => .multipoint (vs.map (promoteVert a b))
  | .multilinestring ls => .multilinestring (ls.map (fun r => r.map (promoteVert a b)))
  | .multipolygon ps =>
      .multipolygon (ps.map (fun p => p.map (fun r => r.map (promoteVert a b))))
  | .collection gs => .collection (Geom.promoteList a b gs)

/-- Promote every geometry of a list between dimension sets. -/
def Geom.promoteList (a b : Dimensions) : List Geom → List Geom
  | [] => []
  | g :: gs => Geom.promote a b g :: Geom.promoteList a b gs

end

/-- Modelled from the spec: coerce raw values with no target type: parse each
element, infer the covering TypeSpec, and build one array of that type with
every element promoted to the common dimensions. -/
def asGeoarrow (vs : List InputValue) : Except InferErr (TypeSpec × List Geom) :=
  match parseAll vs with
  | .error e => .error e
  | .ok parsed =>
    match inferCommon vs with
    | .error e => .error e
    | .ok spec =>
      .ok (spec, parsed.map (fun r => Geom.promote r.2.1 (spec.dims.getD .xy) r.2.2))

/-- One physical buffer slot of an array layout. -/
inductive BufSlot where
  | offsets32 : BufSlot
  | offsets64 : BufSlot
  | axisCoords : BufSlot
  | interleavedCoords : BufSlot
  | textData : BufSlot
  | binaryData : BufSlot
deriving DecidableEq, Repr

/-- Coordinate buffer slots of a native layout: one buffer per axis when
SEPARATED, a single tuple buffer when INTERLEAVED. -/
def coordSlots (d : Dimensions) (ct : CoordType) : List BufSlot :=
  match ct with
  | .separated => List.replicate (dimCount d) .axisCoords
  | .interleaved => [.interleavedCoords]

/-- Modelled from the spec: the pure buffer-layout rules mapping a resolved
type to the ordered nested buffers it requires; no shape exists for the
mixed marker or for a native GEOMETRYCOLLECTION. -/
def layoutFor (k : GeometryKind) (d : Dimensions) (ct : CoordType) (e : Encoding) :
    Option (List BufSlot) :=
  match e with
  | .wkt => some [.offsets32, .textData]
  | .wkb => some [.offsets32, .binaryData]
  | .large_wkt => some [.offsets64, .textData]
  | .large_wkb => some [.offsets64, .binaryData]
  | .geoarrow =>
    match k with
    | .point => some (coordSlots d ct)
    | .linestring => some (.offsets32 :: coordSlots d ct)
    | .multipoint => some (.offsets32 :: coordSlots d ct)
    | .polygon => some (.offsets32 :: .offsets32 :: coordSlots d ct)
    | .multilinestring => some (.offsets32 :: .offsets32 :: coordSlots d ct)
    | .multipolygon => some (.offsets32 :: .offsets32 :: .offsets32 :: coordSlots d ct)
    | _ => none

/-- The layout of a concrete TypeSpec, read from its four layout-relevant
fields. -/
def layoutForSpec (s : TypeSpec) : Option (List BufSlot) :=
  match s.kind, s.dims, s.coordType, s.encoding with
  | some k, some d, some ct, some e => layoutFor k d ct e
  | _, _, _, _ => none

/-- One materialized buffer of a geometry array: an offset buffer or the
vertex buffer. -/
inductive GeoBuf where
  | offsets : List Nat → GeoBuf
  | verts : List Vert → GeoBuf

/-- Offsets delimiting consecutive runs of the given lengths, starting from
the accumulator. -/
def offsetsOf : Nat → List Nat → List Nat
  | acc, [] => [acc]
  | acc, n :: ns => acc :: offsetsOf (acc + n) ns

/-- Point payload of a geometry. -/
def asPointG : Geom → Option (Option Vert)
  | .point v => some v
  | _ => none

/-- Linestring payload of a geometry. -/
def asLsG : Geom → Option (List Vert)
  | .linestring vs => some vs
  | _ => none

/-- Multipoint payload of a geometry. -/
def asMpG : Geom → Option (List Vert)
  | .multipoint vs => some vs
  | _ => none

/-- Polygon payload of a geometry. -/
def asPolyG : Geom → Option (List (List Vert))
  | .polygon rs => some rs
  | _ => none

/-- Multilinestring payload of a geometry. -/
def asMlsG : Geom → Option (List (List Vert))
  | .multilinestring ls => some ls
  | _ => none

/-- Multipolygon payload of a geometry. -/
def asMpolyG : Geom → Option (List (List (List Vert)))
  | .multipolygon ps => some ps
  | _ => none

/-- Buffers of a one-offset-level array: offsets over element vertex counts
and the flattened vertices. -/
def oneLevel (vss : List (List Vert)) : List GeoBuf :=
  [.offsets (offsetsOf 0 (vss.map List.length)), .verts vss.flatten]

/-- Buffers of a two-offset-level array. -/
def twoLevel (rss : List (List (List Vert))) : List GeoBuf :=
  .offsets (offsetsOf 0 (rss.map List.length)) :: oneLevel rss.flatten

/-- Buffers of a three-offset-level array. -/
def threeLevel (pss : List (List (List (List Vert)))) : List GeoBuf :=
  .offsets (offsetsOf 0 (pss.map List.length)) :: twoLevel pss.flatten

/-- Modelled from the spec: materialize the nested buffers of an array of
geometries of one native kind (the geobuffers view of an array); none when an
element is not of the array's kind. -/
def geobuffers (d : Dimensions) (k : GeometryKind) (gs : List Geom) :
    Option (List GeoBuf) :=
  match k with
  | .point =>
      (gs.mapM asPointG).map
        (fun pts => [GeoBuf.verts (pts.map (fun v => v.getD (sentinelVert d)))])
  | .linestring => (gs.mapM asLsG).map oneLevel
  | .multipoint => (gs.mapM asMpG).map oneLevel
  | .polygon => (gs.mapM asPolyG).map twoLevel
  | .multilinestring => (gs.mapM asMlsG).map twoLevel
  | .multipolygon => (gs.mapM asMpolyG).map threeLevel
  | _ => none

/-- Interleave axis buffers vertex-major for the given vertex count. -/
def interleaveN : Nat → List (List Nat) → List Nat
  | 0, _ => []
  | n + 1, axes => axes.map (fun a => a.headD 0) ++ interleaveN n (axes.map List.tail)

/-- Modelled from the spec: convert the SEPARATED buffers of a POINT array to
the single INTERLEAVED tuple buffer. -/
def sepToInter (axes : List (List Nat)) : List Nat :=
  interleaveN (axes.headD []).length axes

/-- Every d-th element of a buffer, beginning with the first; fuel is one
unit per element. -/
def everyNthF : Nat → Nat → List Nat → List Nat
  | 0, _, _ => []
  | _ + 1, _, [] => []
  | fuel + 1, d, x :: xs => x :: everyNthF fuel d (xs.drop (d - 1))

/-- Every d-th element of a buffer, beginning with the first. -/
def everyNth (d : Nat) (l : List Nat) : List Nat :=
  everyNthF l.length d l

/-- Modelled from the spec: convert the INTERLEAVED tuple buffer of a POINT
array back to the per-axis SEPARATED buffers. -/
def interToSep (d : Nat) (flat : List Nat) : List (List Nat) :=
  (List.range d).map (fun i => everyNth d (flat.drop i))

/-- A geometry array: a concrete TypeSpec with its sequence of values. -/
structure GeomArray where
  spec : TypeSpec
  geoms : List Geom

/-- The process store of constructed arrays, keyed by identity; models which
memory an operation may touch so that non-mutation is expressible. -/
structure Store where
  entries : List (Nat × GeomArray)

/-- The array currently registered under an identity. -/
def Store.lookup (st : Store) (i : Nat) : Option GeomArray :=
  (st.entries.find? (fun e => e.1 == i)).map Prod.snd

/-- An identity not yet used by any entry. -/
def Store.freshId (st : Store) : Nat :=
  (st.entries.map Prod.fst).foldr (fun a b => max a b) 0 + 1

/-- Modelled from the spec: every array-producing operation (the with_X
family and coercion) reads its input array and registers its result as a new
array; the input entry is never replaced or edited. -/
def Store.applyNew (st : Store) (i : Nat) (f : GeomArray → Option GeomArray) :
    Store × Option Nat :=
  match st.lookup i with
  | none => (st, none)
  | some a =>
    match f a with
    | none => (st, none)
    | some a2 => (⟨st.entries ++ [(st.freshId, a2)]⟩, some st.freshId)

/-- Overwrite the geometry-kind field. -/
def TypeSpec.withGeometryType (s : TypeSpec) (k : GeometryKind) : TypeSpec :=
  ⟨some k, s.dims, s.coordType, s.encoding, s.edgeType, s.crs⟩

/-- Overwrite the dimensions field. -/
def TypeSpec.withDimensions (s : TypeSpec) (d : Dimensions) : TypeSpec :=
  ⟨s.kind, some d, s.coordType, s.encoding, s.edgeType, s.crs⟩

/-- Overwrite the coordinate-layout field. -/
def TypeSpec.withCoordType (s : TypeSpec) (c : CoordType) : TypeSpec :=
  ⟨s.kind, s.dims, some c, s.encoding, s.edgeType, s.crs⟩

/-- Overwrite the encoding field. -/
def TypeSpec.withEncoding (s : TypeSpec) (e : Encoding) : TypeSpec :=
  ⟨s.kind, s.dims, s.coordType, some e, s.edgeType, s.crs⟩

/-- Overwrite the edge-interpretation field. -/
def TypeSpec.withEdgeType (s : TypeSpec) (e : EdgeType) : TypeSpec :=
  ⟨s.kind, s.dims, s.coordType, s.encoding, some e, s.crs⟩

/-- Overwrite the CRS field. -/
def TypeSpec.withCrs (s : TypeSpec) (c : Crs) : TypeSpec :=
  ⟨s.kind, s.dims, s.coordType, s.encoding, s.edgeType, some c⟩

/-- Consistency of two consecutive buffers of an array: an offset buffer's
last entry counts the elements delimited by the next buffer. -/
def bufAdj : GeoBuf → GeoBuf → Prop
  | .offsets os, .offsets os2 => os.getLast? = some (os2.length - 1)
  | .offsets os, .verts vs => os.getLast? = some vs.length
  | _, _ => True

/-- The uppercase keyword alphabet. -/
def upChars : List Char :=
  ['A', 'B', 'C', 'D', 'E', 'F', 'G', 'H', 'I', 'J', 'K', 'L', 'M',
   'N', 'O', 'P', 'Q', 'R', 'S', 'T', 'U', 'V', 'W', 'X', 'Y', 'Z']

/-- Well-formedness of an emitted token: keyword tokens are nonempty and
uppercase alphabetic; other tokens carry no text. -/
def TokWF : Tok → Prop
  | .word s => s.data ≠ [] ∧ ∀ c ∈ s.data, c ∈ upChars
  | _ => True

/-- Unifying with the all-unset field on the left is the identity. -/
theorem CField.joinEq_unset_left {α : Type} [DecidableEq α] (b : CField α) :
    CField.joinEq .unset b = b := by cases b <;> rfl

/-- Unifying with the all-unset field on the right is the identity. -/
theorem CField.joinEq_unset_right {α : Type} [DecidableEq α] (a : CField α) :
    CField.joinEq a .unset = a := by cases a <;> rfl

/-- A contradiction on the left absorbs. -/
theorem CField.joinEq_conflict_left {α : Type} [DecidableEq α] (b : CField α) :
    CField.joinEq .conflict b = .conflict := by cases b <;> rfl

/-- A contradiction on the right absorbs. -/
theorem CField.joinEq_conflict_right {α : Type} [DecidableEq α] (a : CField α) :
    CField.joinEq a .conflict = .conflict := by cases a <;> rfl

/-- Agreement-field unification is commutative. -/
theorem CField.joinEq_comm {α : Type} [DecidableEq α] (a b : CField α) :
    CField.joinEq a b = CField.joinEq b a := by
  cases a <;> cases b <;> try rfl
  rename_i x y
  simp only [CField.joinEq]
  by_cases h : x = y
  · subst h; simp
  · rw [if_neg h, if_neg fun hh => h hh.symm]

/-- Agreement-field unification is associative. -/
theorem CField.joinEq_assoc {α : Type} [DecidableEq α] (a b c : CField α) :
    CField.joinEq (CField.joinEq a b) c = CField.joinEq a (CField.joinEq b c) := by
  cases a <;> cases b <;> cases c <;>
    first
    | rfl
    | (simp only [CField.joinEq_unset_left, CField.joinEq_unset_right,
        CField.joinEq_conflict_left, CField.joinEq_conflict_right]
       try rfl)
    | skip
  rename_i x y z
  by_cases hxy : x = y
  · subst hxy
    by_cases hxz : x = z
    · subst hxz; simp [CField.joinEq]
    · simp [CField.joinEq, hxz]
  · by_cases hyz : y = z
    · subst hyz; simp [CField.joinEq, hxy]
    · simp [CField.joinEq, hxy, hyz, CField.joinEq_conflict_left]

/-- Kind unification lifted to optional fields is commutative. -/
theorem optJoin_kind_comm : ∀ a b : Option GeometryKind,
    optJoin GeometryKind.join a b = optJoin GeometryKind.join b a := by decide

/-- Kind unification lifted to optional fields is associative. -/
theorem optJoin_kind_assoc : ∀ a b c : Option GeometryKind,
    optJoin GeometryKind.join (optJoin GeometryKind.join a b) c =
      optJoin GeometryKind.join a (optJoin GeometryKind.join b c) := by decide

/-- Dimension unification lifted to optional fields is commutative. -/
theorem optJoin_dims_comm : ∀ a b : Option Dimensions,
    optJoin Dimensions.join a b = optJoin Dimensions.join b a := by decide

/-- Dimension unification lifted to optional fields is associative. -/
theorem optJoin_dims_assoc : ∀ a b c : Option Dimensions,
    optJoin Dimensions.join (optJoin Dimensions.join a b) c =
      optJoin Dimensions.join a (optJoin Dimensions.join b c) := by decide

/-- Coordinate-layout unification lifted to optional fields is commutative. -/
theorem optJoin_coord_comm : ∀ a b : Option CoordType,
    optJoin CoordType.join a b = optJoin CoordType.join b a := by decide

/-- Coordinate-layout unification lifted to optional fields is associative. -/
theorem optJoin_coord_assoc : ∀ a b c : Option CoordType,
    optJoin CoordType.join (optJoin CoordType.join a b) c =
      optJoin CoordType.join a (optJoin CoordType.join b c) := by decide

/-- Encoding unification lifted to optional fields is commutative. -/
theorem optJoin_enc_comm : ∀ a b : Option Encoding,
    optJoin Encoding.join a b = optJoin Encoding.join b a := by decide

/-- Encoding unification lifted to optional fields is associative. -/
theorem optJoin_enc_assoc : ∀ a b c : Option Encoding,
    optJoin Encoding.join (optJoin Encoding.join a b) c =
      optJoin Encoding.join a (optJoin Encoding.join b c) := by decide

/-- Fieldwise unification of fold states is commutative. -/
theorem ESpec.join_comm (a b : ESpec) : ESpec.join a b = ESpec.join b a := by
  simp only [ESpec.join, ESpec.mk.injEq]
  exact ⟨optJoin_kind_comm _ _, optJoin_dims_comm _ _, optJoin_coord_comm _ _,
    optJoin_enc_comm _ _, CField.joinEq_comm _ _, CField.joinEq_comm _ _⟩

/-- Fieldwise unification of fold states is associative. -/
theorem ESpec.join_assoc (a b c : ESpec) :
    ESpec.join (ESpec.join a b) c = ESpec.join a (ESpec.join b c) := by
  simp only [ESpec.join, ESpec.mk.injEq]
  exact ⟨optJoin_kind_assoc _ _ _, optJoin_dims_assoc _ _ _, optJoin_coord_assoc _ _ _,
    optJoin_enc_assoc _ _ _, CField.joinEq_assoc _ _ _, CField.joinEq_assoc _ _ _⟩

/-- The all-unset fold state is a left identity for unification. -/
theorem ESpec.join_bot_left (a : ESpec) : ESpec.join ESpec.bot a = a := by
  cases a
  simp only [ESpec.join, ESpec.bot, ESpec.mk.injEq]
  refine ⟨rfl, rfl, rfl, rfl, CField.joinEq_unset_left _, CField.joinEq_unset_left _⟩

/-- Reading a fold state back as a TypeSpec inverts the embedding. -/
theorem TypeSpec.toSpec_toE (s : TypeSpec) : s.toE.toSpec = some s := by
  cases s with
  | mk k d ct e et c =>
    cases et <;> cases c <;> rfl

/-- A successful read-back of a fold state recovers exactly that state under
the embedding. -/
theorem ESpec.toE_of_toSpec {e : ESpec} {s : TypeSpec} (h : e.toSpec = some s) :
    s.toE = e := by
  cases e with
  | mk k d ct en et c =>
    cases et <;> cases c <;> simp [ESpec.toSpec, CField.toOpt] at h <;>
      simp [← h, TypeSpec.toE]

/-- A contradictory fold state stays contradictory under further unification. -/
theorem ESpec.toSpec_join_none {e : ESpec} (h : e.toSpec = none) (x : ESpec) :
    (ESpec.join e x).toSpec = none := by
  cases e with
  | mk k d ct en et c =>
    cases et <;> cases c <;> simp [ESpec.toSpec, CField.toOpt] at h ⊢ <;>
      simp [ESpec.join, CField.joinEq_conflict_left, ESpec.toSpec, CField.toOpt]

/-- Claim C2: common over a list of TypeSpecs is invariant under permutation
of its inputs, and is associative in the sense that folding the common of a
prefix back in yields the same result as one combined resolution. -/
theorem claim_C2_common_perm_assoc :
    (∀ l l' : List TypeSpec, l.Perm l' → TypeSpec.commonList l = TypeSpec.commonList l') ∧
    (∀ a b c : TypeSpec,
      TypeSpec.commonList [a, b, c] =
        (TypeSpec.commonList [a, b]).bind fun m => TypeSpec.commonList [m, c]) := by
  constructor
  · intro l l' hperm
    unfold TypeSpec.commonList
    have hcomm : ∀ x ∈ l, ∀ y ∈ l, ∀ z : ESpec,
        ESpec.join (ESpec.join z x.toE) y.toE = ESpec.join (ESpec.join z y.toE) x.toE := by
      intro x _ y _ z
      rw [ESpec.join_assoc]
      rw [ESpec.join_assoc]
      rw [ESpec.join_comm x.toE y.toE]
    rw [hperm.foldl_eq' hcomm ESpec.bot]
  · intro a b c
    simp only [TypeSpec.commonList, List.foldl]
    rcases hcase : (ESpec.join (ESpec.join ESpec.bot a.toE) b.toE).toSpec with _ | m
    · exact ESpec.toSpec_join_none hcase c.toE
    · show _ = (ESpec.join (ESpec.join ESpec.bot m.toE) c.toE).toSpec
      rw [ESpec.toE_of_toSpec hcase, ESpec.join_bot_left, ESpec.join_bot_left]

/-- Claim C2 witness: permutation-invariance and associativity at concrete
inputs (a point/XY spec, a multipoint/XYZ spec, and a WKB spec). -/
theorem claim_C2_common_perm_assoc_witness :
    (TypeSpec.commonList
        [⟨some .point, some .xy, none, none, none, none⟩,
         ⟨some .multipoint, some .xyz, none, none, none, none⟩] =
      TypeSpec.commonList
        [⟨some .multipoint, some .xyz, none, none, none, none⟩,
         ⟨some .point, some .xy, none, none, none, none⟩]) ∧
    (TypeSpec.commonList
        [⟨some .point, some .xy, none, none, none, none⟩,
         ⟨some .multipoint, some .xyz, none, none, none, none⟩,
         ⟨some .polygon, none, none, some .wkb, none, none⟩] =
      (TypeSpec.commonList
          [⟨some .point, some .xy, none, none, none, none⟩,
           ⟨some .multipoint, some .xyz, none, none, none, none⟩]).bind
        fun m => TypeSpec.commonList
          [m, ⟨some .polygon, none, none, some .wkb, none, none⟩]) :=
  ⟨claim_C2_common_perm_assoc.1 _ _ (List.Perm.swap _ _ _),
   claim_C2_common_perm_assoc.2 _ _ _⟩

/-- A successful read-back of a fold state recovers its promotable fields. -/
theorem ESpec.fields_of_toSpec {e : ESpec} {s : TypeSpec} (h : e.toSpec = some s) :
    s.kind = e.kind ∧ s.dims = e.dims ∧ s.encoding = e.encoding := by
  cases e with
  | mk k d ct en et c =>
    cases et <;> cases c <;> simp [ESpec.toSpec, CField.toOpt] at h <;>
      simp [← h]

/-- Claim C4: dimension unification promotes to the union of the axes
present: POINT XY with POINT XYZ yields POINT XYZ; XYM with XYZ promotes to
XYZM; in general the joined dimensions have a Z or M axis exactly when some
input does. -/
theorem claim_C4_dimension_promotion :
    TypeSpec.commonList
        [⟨some .point, some .xy, none, none, none, none⟩,
         ⟨some .point, some .xyz, none, none, none, none⟩] =
      some ⟨some .point, some .xyz, none, none, none, none⟩ ∧
    TypeSpec.commonList
        [⟨none, some .xym, none, none, none, none⟩,
         ⟨none, some .xyz, none, none, none, none⟩] =
      some ⟨none, some .xyzm, none, none, none, none⟩ ∧
    ∀ a b : Dimensions,
      (Dimensions.join a b).hasZ = (a.hasZ || b.hasZ) ∧
      (Dimensions.join a b).hasM = (a.hasM || b.hasM) := by
  exact ⟨by decide, by decide, by decide⟩

/-- Claim C5: coercing the WKT inputs POINT (0 1) and POINT (2 3) with no
target type yields a concrete kind=POINT, encoding=GEOARROW, dims=XY array
holding exactly the two vertices. -/
theorem claim_C5_mixed_input_coercion :
    asGeoarrow [.text "POINT (0 1)", .text "POINT (2 3)"] =
      .ok (⟨some .point, some .xy, some .separated, some .geoarrow, none, none⟩,
        [.point (some [0, 1]), .point (some [2, 3])]) := by
  rfl

/-- Claim C10: a single-part kind counts as covered by its multi-part
counterpart: unifying POINT with MULTIPOINT gives native MULTIPOINT, the
encoding stays GEOARROW (never the WKB fallback), and the README example
common(GEOARROW, POINT, MULTIPOINT, XYM, XYZ) resolves to the multipoint_zm
native type. -/
theorem claim_C10_single_multi_covered :
    (∀ a b : TypeSpec, a.kind = some .point → b.kind = some .multipoint →
      (a.encoding = none ∨ a.encoding = some .geoarrow) →
      (b.encoding = none ∨ b.encoding = some .geoarrow) →
      ∀ m, TypeSpec.common2 a b = some m →
        m.kind = some .multipoint ∧
        m.encoding ≠ some .wkb ∧ m.encoding ≠ some .large_wkb) ∧
    TypeSpec.commonList
        [⟨none, none, none, some .geoarrow, none, none⟩,
         ⟨some .point, none, none, none, none, none⟩,
         ⟨some .multipoint, none, none, none, none, none⟩,
         ⟨none, some .xym, none, none, none, none⟩,
         ⟨none, some .xyz, none, none, none, none⟩] =
      some ⟨some .multipoint, some .xyzm, none, some .geoarrow, none, none⟩ := by
  constructor
  · intro a b ha hb hae hbe m hm
    obtain ⟨hk, _, he⟩ := ESpec.fields_of_toSpec hm
    constructor
    · rw [hk]
      show optJoin GeometryKind.join a.kind b.kind = some .multipoint
      rw [ha, hb]
      rfl
    · have he2 : m.encoding = optJoin Encoding.join a.encoding b.encoding := he
      rcases hae with h1 | h1 <;> rcases hbe with h2 | h2 <;>
        rw [h1, h2] at he2 <;> simp [optJoin, Encoding.join] at he2 <;>
        simp [he2]
  · rfl

/-- Claim C10 witness: the general statement applied to a concrete GEOARROW
point spec and an unconstrained multipoint spec. -/
theorem claim_C10_single_multi_covered_witness :
    (⟨some .multipoint, none, none, some .geoarrow, none, none⟩ : TypeSpec).kind =
        some .multipoint ∧
      (⟨some .multipoint, none, none, some .geoarrow, none, none⟩ : TypeSpec).encoding ≠
          some .wkb ∧
        (⟨some .multipoint, none, none, some .geoarrow, none, none⟩ : TypeSpec).encoding ≠
          some .large_wkb :=
  claim_C10_single_multi_covered.1
    ⟨some .point, none, none, some .geoarrow, none, none⟩
    ⟨some .multipoint, none, none, none, none, none⟩
    rfl rfl (Or.inr rfl) (Or.inl rfl)
    ⟨some .multipoint, none, none, some .geoarrow, none, none⟩ rfl

/-- The first offset is the accumulator. -/
theorem offsetsOf_head (a : Nat) (lens : List Nat) :
    (offsetsOf a lens).head? = some a := by
  cases lens <;> rfl

/-- Offsets are one longer than the lengths they delimit. -/
theorem offsetsOf_length (a : Nat) (lens : List Nat) :
    (offsetsOf a lens).length = lens.length + 1 := by
  induction lens generalizing a with
  | nil => rfl
  | cons n ns ih => simp [offsetsOf, ih]

/-- Offset buffers are monotonically non-decreasing. -/
theorem offsetsOf_chain (a : Nat) (lens : List Nat) :
    List.Chain' (· ≤ ·) (offsetsOf a lens) := by
  induction lens generalizing a with
  | nil => exact List.chain'_singleton a
  | cons n ns ih =>
    rcases ns with _ | ⟨m, ms⟩
    · exact List.chain'_cons.mpr ⟨Nat.le_add_right a n, List.chain'_singleton _⟩
    · exact List.chain'_cons.mpr ⟨Nat.le_add_right a n, ih (a + n)⟩

/-- The last offset is the accumulator plus the delimited lengths. -/
theorem offsetsOf_getLast (a : Nat) (lens : List Nat) :
    (offsetsOf a lens).getLast? = some (a + lens.sum) := by
  induction lens generalizing a with
  | nil => simp [offsetsOf]
  | cons n ns ih =>
    show (a :: offsetsOf (a + n) ns).getLast? = _
    rw [List.getLast?_cons, ih (a + n)]
    simp [Nat.add_assoc]

/-- Claim C6: the layout of a concrete TypeSpec depends only on its kind,
dims, coordType and encoding (never on CRS or edge type), and every offset
buffer produced by materializing an array starts at 0, is monotonically
non-decreasing, and ends at the total child-element count delimited by the
next buffer. -/
theorem claim_C6_layout_determinism_offsets :
    (∀ s t : TypeSpec, s.kind = t.kind → s.dims = t.dims →
      s.coordType = t.coordType → s.encoding = t.encoding →
      layoutForSpec s = layoutForSpec t) ∧
    (∀ (d : Dimensions) (k : GeometryKind) (gs : List Geom) (bufs : List GeoBuf),
      geobuffers d k gs = some bufs →
      (∀ os, GeoBuf.offsets os ∈ bufs →
        os.head? = some 0 ∧ List.Chain' (· ≤ ·) os) ∧
      List.Chain' bufAdj bufs) := by
  constructor
  · intro s t hk hd hc he
    unfold layoutForSpec
    rw [hk, hd, hc, he]
  · intro d k gs bufs h
    cases k <;> simp only [geobuffers, Option.map_eq_some'] at h
    case geometry => exact absurd h (by simp)
    case geometrycollection => exact absurd h (by simp)
    case point =>
      obtain ⟨pts, _, rfl⟩ := h
      refine ⟨?_, ?_⟩
      · intro os hos
        simp at hos
      · simp [List.chain'_singleton]
    case linestring =>
      obtain ⟨vss, _, rfl⟩ := h
      refine ⟨?_, ?_⟩
      · intro os hos
        simp only [oneLevel, List.mem_cons, List.mem_singleton] at hos
        rcases hos with hos | hos | hos
        · cases hos
          exact ⟨offsetsOf_head _ _, offsetsOf_chain _ _⟩
        · exact GeoBuf.noConfusion hos
        · simp at hos
      · refine List.chain'_cons.mpr ⟨?_, List.chain'_singleton _⟩
        show (offsetsOf 0 (vss.map List.length)).getLast? = some vss.flatten.length
        simp [offsetsOf_getLast, List.length_flatten]
    case multipoint =>
      obtain ⟨vss, _, rfl⟩ := h
      refine ⟨?_, ?_⟩
      · intro os hos
        simp only [oneLevel, List.mem_cons, List.mem_singleton] at hos
        rcases hos with hos | hos | hos
        · cases hos
          exact ⟨offsetsOf_head _ _, offsetsOf_chain _ _⟩
        · exact GeoBuf.noConfusion hos
        · simp at hos
      · refine List.chain'_cons.mpr ⟨?_, List.chain'_singleton _⟩
        show (offsetsOf 0 (vss.map List.length)).getLast? = some vss.flatten.length
        simp [offsetsOf_getLast, List.length_flatten]
    case polygon =>
      obtain ⟨rss, _, rfl⟩ := h
      refine ⟨?_, ?_⟩
      · intro os hos
        simp only [twoLevel, oneLevel, List.mem_cons, List.mem_singleton] at hos
        rcases hos with hos | hos | hos | hos
        · cases hos
          exact ⟨offsetsOf_head _ _, offsetsOf_chain _ _⟩
        · cases hos
          exact ⟨offsetsOf_head _ _, offsetsOf_chain _ _⟩
        · exact GeoBuf.noConfusion hos
        · simp at hos
      · refine List.chain'_cons.mpr ⟨?_, List.chain'_cons.mpr ⟨?_, List.chain'_singleton _⟩⟩
        · show (offsetsOf 0 (rss.map List.length)).getLast? =
            some ((offsetsOf 0 (rss.flatten.map List.length)).length - 1)
          simp [offsetsOf_getLast, offsetsOf_length, List.length_flatten, List.map_map,
            Function.comp_def, List.length_map]
        · show (offsetsOf 0 (rss.flatten.map List.length)).getLast? =
            some rss.flatten.flatten.length
          simp [offsetsOf_getLast, List.length_flatten]
    case multilinestring =>
      obtain ⟨rss, _, rfl⟩ := h
      refine ⟨?_, ?_⟩
      · intro os hos
        simp only [twoLevel, oneLevel, List.mem_cons, List.mem_singleton] at hos
        rcases hos with hos | hos | hos | hos
        · cases hos
          exact ⟨offsetsOf_head _ _, offsetsOf_chain _ _⟩
        · cases hos
          exact ⟨offsetsOf_head _ _, offsetsOf_chain _ _⟩
        · exact GeoBuf.noConfusion hos
        · simp at hos
      · refine List.chain'_cons.mpr ⟨?_, List.chain'_cons.mpr ⟨?_, List.chain'_singleton _⟩⟩
        · show (offsetsOf 0 (rss.map List.length)).getLast? =
            some ((offsetsOf 0 (rss.flatten.map List.length)).length - 1)
          simp [offsetsOf_getLast, offsetsOf_length, List.length_flatten, List.map_map,
            Function.comp_def, List.length_map]
        · show (offsetsOf 0 (rss.flatten.map List.length)).getLast? =
            some rss.flatten.flatten.length
          simp [offsetsOf_getLast, List.length_flatten]
    case multipolygon =>
      obtain ⟨pss, _, rfl⟩ := h
      refine ⟨?_, ?_⟩
      · intro os hos
        simp only [threeLevel, twoLevel, oneLevel, List.mem_cons, List.mem_singleton] at hos
        rcases hos with hos | hos | hos | hos | hos
        · cases hos
          exact ⟨offsetsOf_head _ _, offsetsOf_chain _ _⟩
        · cases hos
          exact ⟨offsetsOf_head _ _, offsetsOf_chain _ _⟩
        · cases hos
          exact ⟨offsetsOf_head _ _, offsetsOf_chain _ _⟩
        · exact GeoBuf.noConfusion hos
        · simp at hos
      · refine List.chain'_cons.mpr ⟨?_,
          List.chain'_cons.mpr ⟨?_, List.chain'_cons.mpr ⟨?_, List.chain'_singleton _⟩⟩⟩
        · show (offsetsOf 0 (pss.map List.length)).getLast? =
            some ((offsetsOf 0 (pss.flatten.map List.length)).length - 1)
          simp [offsetsOf_getLast, offsetsOf_length, List.length_flatten, List.map_map,
            Function.comp_def, List.length_map]
        · show (offsetsOf 0 (pss.flatten.map List.length)).getLast? =
            some ((offsetsOf 0 (pss.flatten.flatten.map List.length)).length - 1)
          simp [offsetsOf_getLast, offsetsOf_length, List.length_flatten, List.map_map,
            Function.comp_def, List.length_map]
        · show (offsetsOf 0 (pss.flatten.flatten.map List.length)).getLast? =
            some pss.flatten.flatten.flatten.length
          simp [offsetsOf_getLast, List.length_flatten]

/-- Claim C6 witness: both parts at concrete inputs — two specs differing
only in CRS, and a two-element multilinestring array. -/
theorem claim_C6_layout_determinism_offsets_witness :
    (layoutForSpec
        ⟨some .point, some .xy, some .separated, some .geoarrow, none, none⟩ =
      layoutForSpec
        ⟨some .point, some .xy, some .separated, some .geoarrow, some .planar,
          some ⟨"EPSG:4326"⟩⟩) ∧
    ((∀ os, GeoBuf.offsets os ∈
        [GeoBuf.offsets (offsetsOf 0 [2, 1]),
         GeoBuf.offsets (offsetsOf 0 [2, 1, 1]),
         GeoBuf.verts [[1, 2], [3, 4], [5, 6], [7, 8]]] →
        os.head? = some 0 ∧ List.Chain' (· ≤ ·) os) ∧
      List.Chain' bufAdj
        [GeoBuf.offsets (offsetsOf 0 [2, 1]),
         GeoBuf.offsets (offsetsOf 0 [2, 1, 1]),
         GeoBuf.verts [[1, 2], [3, 4], [5, 6], [7, 8]]]) :=
  ⟨claim_C6_layout_determinism_offsets.1 _ _ rfl rfl rfl rfl,
   claim_C6_layout_determinism_offsets.2 Dimensions.xy .multilinestring
     [.multilinestring [[[1, 2], [3, 4]], [[5, 6]]], .multilinestring [[[7, 8]]]]
     _ rfl⟩

/-- A key present among the entries is found. -/
theorem find_key_isSome (l : List (Nat × GeomArray)) (j : Nat)
    (hj : j ∈ l.map Prod.fst) : (l.find? (fun e => e.1 == j)).isSome := by
  induction l with
  | nil => simp at hj
  | cons x xs ih =>
    by_cases hx : x.1 = j
    · simp [List.find?_cons_of_pos, hx]
    · rw [List.find?_cons_of_neg _ (by simpa using hx)]
      simp only [List.map_cons, List.mem_cons] at hj
      rcases hj with hj | hj
      · exact absurd hj.symm hx
      · exact ih hj

/-- Claim C9: array-producing operations never mutate existing arrays — the
store entry of every existing array is identical before and after — and each
with_X TypeSpec operation only sets its own field, preserving all others of
its (immutable) input. -/
theorem claim_C9_no_mutation :
    (∀ (st : Store) (i : Nat) (f : GeomArray → Option GeomArray),
      ∀ j ∈ st.entries.map Prod.fst,
        ((st.applyNew i f).1).lookup j = st.lookup j) ∧
    (∀ (s : TypeSpec) (k : GeometryKind) (d : Dimensions) (c : CoordType)
        (e : Encoding) (et : EdgeType) (cr : Crs),
      ((s.withGeometryType k).kind = some k ∧
        (s.withGeometryType k).dims = s.dims ∧
        (s.withGeometryType k).coordType = s.coordType ∧
        (s.withGeometryType k).encoding = s.encoding ∧
        (s.withGeometryType k).edgeType = s.edgeType ∧
        (s.withGeometryType k).crs = s.crs) ∧
      ((s.withDimensions d).dims = some d ∧ (s.withDimensions d).kind = s.kind ∧
        (s.withDimensions d).coordType = s.coordType ∧
        (s.withDimensions d).encoding = s.encoding ∧
        (s.withDimensions d).edgeType = s.edgeType ∧
        (s.withDimensions d).crs = s.crs) ∧
      ((s.withCoordType c).coordType = some c ∧ (s.withCoordType c).kind = s.kind ∧
        (s.withCoordType c).dims = s.dims ∧
        (s.withCoordType c).encoding = s.encoding ∧
        (s.withCoordType c).edgeType = s.edgeType ∧
        (s.withCoordType c).crs = s.crs) ∧
      ((s.withEncoding e).encoding = some e ∧ (s.withEncoding e).kind = s.kind ∧
        (s.withEncoding e).dims = s.dims ∧
        (s.withEncoding e).coordType = s.coordType ∧
        (s.withEncoding e).edgeType = s.edgeType ∧
        (s.withEncoding e).crs = s.crs) ∧
      ((s.withEdgeType et).edgeType = some et ∧ (s.withEdgeType et).kind = s.kind ∧
        (s.withEdgeType et).dims = s.dims ∧
        (s.withEdgeType et).coordType = s.coordType ∧
        (s.withEdgeType et).encoding = s.encoding ∧
        (s.withEdgeType et).crs = s.crs) ∧
      ((s.withCrs cr).crs = some cr ∧ (s.withCrs cr).kind = s.kind ∧
        (s.withCrs cr).dims = s.dims ∧
        (s.withCrs cr).coordType = s.coordType ∧
        (s.withCrs cr).encoding = s.encoding ∧
        (s.withCrs cr).edgeType = s.edgeType)) := by
  constructor
  · intro st i f j hj
    rcases h1 : st.lookup i with _ | a
    · simp [Store.applyNew, h1]
    · rcases h2 : f a with _ | a2
      · simp [Store.applyNew, h1, h2]
      · have key : Store.lookup ⟨st.entries ++ [(st.freshId, a2)]⟩ j = st.lookup j := by
          unfold Store.lookup
          rw [List.find?_append]
          obtain ⟨e, he⟩ := Option.isSome_iff_exists.mp (find_key_isSome st.entries j hj)
          rw [he]
          rfl
        simp [Store.applyNew, h1, h2, key]
  · intro s k d c e et cr
    exact ⟨⟨rfl, rfl, rfl, rfl, rfl, rfl⟩, ⟨rfl, rfl, rfl, rfl, rfl, rfl⟩,
      ⟨rfl, rfl, rfl, rfl, rfl, rfl⟩, ⟨rfl, rfl, rfl, rfl, rfl, rfl⟩,
      ⟨rfl, rfl, rfl, rfl, rfl, rfl⟩, ⟨rfl, rfl, rfl, rfl, rfl, rfl⟩⟩

/-- Claim C9 witness: a one-entry store, a with_coord_type array operation,
and the input array's entry after the call. -/
theorem claim_C9_no_mutation_witness :
    ((Store.applyNew ⟨[(1, ⟨TypeSpec.unspecified, []⟩)]⟩ 1
        (fun a => some ⟨a.spec.withCoordType .interleaved, a.geoms⟩)).1).lookup 1 =
      (⟨[(1, ⟨TypeSpec.unspecified, []⟩)]⟩ : Store).lookup 1 :=
  claim_C9_no_mutation.1 ⟨[(1, ⟨TypeSpec.unspecified, []⟩)]⟩ 1
    (fun a => some ⟨a.spec.withCoordType .interleaved, a.geoms⟩) 1 (by simp)

/-- The kind field of the common fold is the fold of the kind fields. -/
theorem foldE_kind (l : List TypeSpec) (b : ESpec) :
    (l.foldl (fun e s => ESpec.join e s.toE) b).kind =
      l.foldl (fun kk s => optJoin GeometryKind.join kk s.kind) b.kind := by
  induction l generalizing b with
  | nil => rfl
  | cons s ss ih => exact ih (ESpec.join b s.toE)

/-- Once the kind fold reaches the mixed marker it stays there. -/
theorem fold_kind_absorb (l : List TypeSpec) :
    l.foldl (fun kk s => optJoin GeometryKind.join kk s.kind) (some .geometry) =
      some .geometry := by
  induction l with
  | nil => rfl
  | cons s ss ih =>
    have h : ∀ x : Option GeometryKind,
        optJoin GeometryKind.join (some .geometry) x = some .geometry := by decide
    show List.foldl _ (optJoin GeometryKind.join (some .geometry) s.kind) ss = _
    rw [h s.kind]
    exact ih

/-- If some later element's kind completes the accumulator to the mixed
marker, the kind fold ends at the mixed marker. -/
theorem fold_kind_pending (l : List TypeSpec) (acc : Option GeometryKind)
    (k2 : GeometryKind) (hmem : ∃ s2 ∈ l, s2.kind = some k2)
    (hacc : optJoin GeometryKind.join acc (some k2) = some .geometry) :
    l.foldl (fun kk s => optJoin GeometryKind.join kk s.kind) acc = some .geometry := by
  induction l generalizing acc with
  | nil => simp at hmem
  | cons s ss ih =>
    obtain ⟨s2, hs2, hk2⟩ := hmem
    have hrc : ∀ z x y : Option GeometryKind,
        optJoin GeometryKind.join (optJoin GeometryKind.join z x) y =
          optJoin GeometryKind.join (optJoin GeometryKind.join z y) x := by decide
    have habs : ∀ x : Option GeometryKind,
        optJoin GeometryKind.join (some .geometry) x = some .geometry := by decide
    rcases List.mem_cons.mp hs2 with rfl | hs2
    · show List.foldl _ (optJoin GeometryKind.join acc s2.kind) ss = _
      rw [hk2, hacc]
      exact fold_kind_absorb ss
    · show List.foldl _ (optJoin GeometryKind.join acc s.kind) ss = _
      refine ih _ ⟨s2, hs2, hk2⟩ ?_
      rw [hrc acc s.kind (some k2), hacc, habs]

/-- Two members whose kinds have no covering native kind force the kind fold
to the mixed marker. -/
theorem fold_kind_top (l : List TypeSpec) (acc : Option GeometryKind)
    (s1 s2 : TypeSpec) (k1 k2 : GeometryKind)
    (h1 : s1 ∈ l) (h2 : s2 ∈ l) (hk1 : s1.kind = some k1) (hk2 : s2.kind = some k2)
    (hj : GeometryKind.join k1 k2 = .geometry) :
    l.foldl (fun kk s => optJoin GeometryKind.join kk s.kind) acc = some .geometry := by
  induction l generalizing acc with
  | nil => simp at h1
  | cons s ss ih =>
    have hpair : ∀ (a : Option GeometryKind) (x y : GeometryKind),
        GeometryKind.join x y = .geometry →
        optJoin GeometryKind.join (optJoin GeometryKind.join a (some x)) (some y) =
          some .geometry := by decide
    have hcomm : ∀ x y : GeometryKind,
        GeometryKind.join x y = GeometryKind.join y x := by decide
    have habs2 : ∀ a : Option GeometryKind,
        optJoin GeometryKind.join a (some .geometry) = some .geometry := by decide
    rcases List.mem_cons.mp h1 with h1e | h1t
    · subst h1e
      rcases List.mem_cons.mp h2 with h2e | h2t
      · rw [h2e, hk1] at hk2
        obtain rfl : k1 = k2 := by injection hk2
        have hg : k1 = .geometry := by
          have hidem : ∀ k : GeometryKind, GeometryKind.join k k = k := by decide
          rw [hidem k1] at hj
          exact hj
        show List.foldl _ (optJoin GeometryKind.join acc s1.kind) ss = _
        rw [hk1, hg, habs2]
        exact fold_kind_absorb ss
      · show List.foldl _ (optJoin GeometryKind.join acc s1.kind) ss = _
        rw [hk1]
        exact fold_kind_pending ss _ k2 ⟨s2, h2t, hk2⟩ (hpair acc k1 k2 hj)
    · rcases List.mem_cons.mp h2 with h2e | h2t
      · subst h2e
        show List.foldl _ (optJoin GeometryKind.join acc s2.kind) ss = _
        rw [hk2]
        exact fold_kind_pending ss _ k1 ⟨s1, h1t, hk1⟩
          (hpair acc k2 k1 (by rw [hcomm k2 k1]; exact hj))
      · exact ih _ h1t h2t

/-- Every successfully parsed element's header is collected. -/
theorem parseHeaders_mem (vs : List InputValue)
    (hs : List (GeometryKind × Dimensions)) (hok : parseHeaders vs = .ok hs) :
    ∀ v ∈ vs, ∀ k d g, parseInput v = .ok (k, d, g) → (k, d) ∈ hs := by
  induction vs generalizing hs with
  | nil =>
    intro v hv
    simp at hv
  | cons v0 vs0 ih =>
    intro v hv k d g hp
    rcases hp0 : parseInput v0 with e | r <;>
      rcases hr : parseHeaders vs0 with e0 | rs <;>
      simp [parseHeaders, hp0, hr] at hok
    subst hok
    rcases List.mem_cons.mp hv with rfl | hv
    · rw [hp0] at hp
      obtain rfl : r = (k, d, g) := by injection hp
      exact List.mem_cons_self _ _
    · exact List.mem_cons_of_mem _ (ih rs hr v hv k d g hp)

/-- Claim C3: whenever the inputs contain two values of mutually incompatible
geometry kinds, inference falls back to a serialized encoding: WKB, or
LARGE_WKB when some individual value exceeds the small-offset threshold —
never the native GEOARROW encoding. -/
theorem claim_C3_mixed_fallback (vs : List InputValue) (v1 v2 : InputValue)
    (k1 k2 : GeometryKind) (d1 d2 : Dimensions) (g1 g2 : Geom)
    (hv1 : v1 ∈ vs) (hv2 : v2 ∈ vs)
    (hp1 : parseInput v1 = .ok (k1, d1, g1)) (hp2 : parseInput v2 = .ok (k2, d2, g2))
    (hj : GeometryKind.join k1 k2 = .geometry) :
    ∀ s, inferCommon vs = .ok s →
      s.encoding = some (if anyLarge vs then Encoding.large_wkb else Encoding.wkb) ∧
      s.kind = some .geometry ∧ s.encoding ≠ some Encoding.geoarrow := by
  intro s hok
  rcases vs with _ | ⟨v0, vs0⟩
  · simp at hv1
  rcases hh : parseHeaders (v0 :: vs0) with e | hs
  · simp [inferCommon, hh] at hok
  rcases hc : TypeSpec.commonList (hs.map headerSpec) with _ | c
  · simp [inferCommon, hh, hc] at hok
  have hm1 : (k1, d1) ∈ hs := parseHeaders_mem _ _ hh v1 hv1 k1 d1 g1 hp1
  have hm2 : (k2, d2) ∈ hs := parseHeaders_mem _ _ hh v2 hv2 k2 d2 g2 hp2
  have hckind : c.kind = some .geometry := by
    have hfields := ESpec.fields_of_toSpec (show _ = some c from hc)
    rw [hfields.1, foldE_kind]
    exact fold_kind_top (hs.map headerSpec) _ (headerSpec (k1, d1)) (headerSpec (k2, d2))
      k1 k2 (List.mem_map_of_mem _ hm1) (List.mem_map_of_mem _ hm2) rfl rfl hj
  have E : inferCommon (v0 :: vs0) =
      .ok ⟨some .geometry, some (c.dims.getD .xy), none,
        some (if anyLarge (v0 :: vs0) then Encoding.large_wkb else Encoding.wkb),
        c.edgeType, c.crs⟩ := by
    simp [inferCommon, hh, hc, hckind, nativeKind]
  rw [E] at hok
  obtain rfl : (⟨some .geometry, some (c.dims.getD .xy), none,
      some (if anyLarge (v0 :: vs0) then Encoding.large_wkb else Encoding.wkb),
      c.edgeType, c.crs⟩ : TypeSpec) = s := by
    injection hok
  refine ⟨rfl, rfl, ?_⟩
  by_cases h : anyLarge (v0 :: vs0) <;> simp [h]

/-- Claim C3 witness: a POINT together with a POLYGON infers the WKB
fallback. -/
theorem claim_C3_mixed_fallback_witness :
    parseInput (.text "POINT (0 1)") = .ok (.point, .xy, .point (some [0, 1])) ∧
    parseInput (.text "POLYGON ((0 0, 1 0, 1 1, 0 0))") =
      .ok (.polygon, .xy, .polygon [[[0, 0], [1, 0], [1, 1], [0, 0]]]) ∧
    GeometryKind.join .point .polygon = .geometry ∧
    ((⟨some .geometry, some .xy, none, some .wkb, none, none⟩ : TypeSpec).encoding =
        some (if anyLarge [.text "POINT (0 1)", .text "POLYGON ((0 0, 1 0, 1 1, 0 0))"]
          then Encoding.large_wkb else Encoding.wkb) ∧
      (⟨some .geometry, some .xy, none, some .wkb, none, none⟩ : TypeSpec).kind =
        some .geometry ∧
      (⟨some .geometry, some .xy, none, some .wkb, none, none⟩ : TypeSpec).encoding ≠
        some Encoding.geoarrow) :=
  ⟨rfl, rfl, rfl,
   claim_C3_mixed_fallback
     [.text "POINT (0 1)", .text "POLYGON ((0 0, 1 0, 1 1, 0 0))"]
     (.text "POINT (0 1)") (.text "POLYGON ((0 0, 1 0, 1 1, 0 0))")
     .point .polygon .xy .xy (.point (some [0, 1]))
     (.polygon [[[0, 0], [1, 0], [1, 1], [0, 0]]])
     (by simp) (by simp) rfl rfl rfl
     ⟨some .geometry, some .xy, none, some .wkb, none, none⟩ rfl⟩

/-- Striding over the empty buffer yields nothing, whatever the fuel. -/
theorem everyNthF_nil (f d : Nat) : everyNthF f d [] = [] := by
  cases f <;> rfl

/-- Striding is insensitive to the fuel once it covers the buffer length. -/
theorem everyNthF_fuel (d : Nat) :
    ∀ (f1 f2 : Nat) (l : List Nat), l.length ≤ f1 → l.length ≤ f2 →
      everyNthF f1 d l = everyNthF f2 d l := by
  intro f1
  induction f1 with
  | zero =>
    intro f2 l h1 _
    obtain rfl : l = [] := List.length_eq_zero.mp (Nat.le_zero.mp h1)
    rw [everyNthF_nil, everyNthF_nil]
  | succ f ih =>
    intro f2 l h1 h2
    rcases l with _ | ⟨x, xs⟩
    · rw [everyNthF_nil, everyNthF_nil]
    · rcases f2 with _ | f2
      · exact absurd h2 (by simp)
      · show x :: everyNthF f d (xs.drop (d - 1)) = x :: everyNthF f2 d (xs.drop (d - 1))
        have hd : (xs.drop (d - 1)).length ≤ xs.length := by
          simp [List.length_drop]
        exact congrArg _ (ih f2 _ (le_trans hd (Nat.le_of_succ_le_succ h1))
          (le_trans hd (Nat.le_of_succ_le_succ h2)))

/-- Unfolding lemma for striding over a nonempty buffer. -/
theorem everyNth_cons (d x : Nat) (xs : List Nat) :
    everyNth d (x :: xs) = x :: everyNth d (xs.drop (d - 1)) := by
  show everyNthF (xs.length + 1) d (x :: xs) = _
  show x :: everyNthF xs.length d (xs.drop (d - 1)) = _
  exact congrArg _ (everyNthF_fuel d xs.length (xs.drop (d - 1)).length _
    (by simp [List.length_drop]) le_rfl)

/-- Interleaving then deinterleaving a uniform block of axis buffers is the
identity. -/
theorem interRound (dn : Nat) (hdn : 0 < dn) :
    ∀ (n : Nat) (axes : List (List Nat)), axes.length = dn →
      (∀ a ∈ axes, a.length = n) →
      interToSep dn (interleaveN n axes) = axes := by
  intro n
  induction n with
  | zero =>
    intro axes hlen hall
    show (List.range dn).map (fun i => everyNth dn (List.drop i [])) = axes
    have h1 : (List.range dn).map (fun i => everyNth dn (List.drop i [])) =
        List.replicate dn [] := by
      rw [show (fun i => everyNth dn (List.drop i [])) = (fun _ : Nat => ([] : List Nat))
        from funext fun i => by simp [List.drop_nil, everyNth, everyNthF]]
      simp [List.map_const']
    rw [h1]
    symm
    rw [List.eq_replicate_iff]
    exact ⟨hlen, fun b hb => List.length_eq_zero.mp (hall b hb)⟩
  | succ n ih =>
    intro axes hlen hall
    have htails : interToSep dn (interleaveN n (axes.map List.tail)) = axes.map List.tail := by
      refine ih (axes.map List.tail) (by simp [hlen]) ?_
      intro t ht
      obtain ⟨a, ha, rfl⟩ := List.mem_map.mp ht
      have := hall a ha
      rcases a with _ | ⟨c, cs⟩
      · simp at this
      · simpa using congrArg (· - 1) this
    show (List.range dn).map
        (fun i => everyNth dn ((axes.map (fun a => a.headD 0) ++
          interleaveN n (axes.map List.tail)).drop i)) = axes
    refine List.ext_getElem (by simp [hlen]) ?_
    intro i hi1 hi2
    have hidn : i < dn := by simpa [hlen] using hi2
    have hih : i < (axes.map (fun a => a.headD 0)).length := by
      simpa [hlen] using hidn
    rw [List.getElem_map, List.getElem_range,
      List.drop_append_of_le_length (Nat.le_of_lt hih),
      List.drop_eq_getElem_cons hih, List.cons_append, everyNth_cons]
    have hrest : ((axes.map (fun a => a.headD 0)).drop (i + 1) ++
        interleaveN n (axes.map List.tail)).drop (dn - 1) =
        (interleaveN n (axes.map List.tail)).drop i := by
      rw [show dn - 1 = ((axes.map (fun a => a.headD 0)).drop (i + 1)).length + i from by
        simp [List.length_drop, hlen]; omega]
      exact List.drop_append i
    rw [hrest]
    have hilt : i < (interToSep dn (interleaveN n (axes.map List.tail))).length := by
      simpa [interToSep] using hidn
    have hio := List.getElem_of_eq htails hilt
    simp only [interToSep, List.getElem_map, List.getElem_range] at hio
    rw [hio, List.getElem_map]
    have hget : axes[i] = axes.get ⟨i, hi2⟩ := rfl
    rw [hget]
    have hlen2 := hall (axes.get ⟨i, hi2⟩) (by exact List.getElem_mem hi2)
    rcases hx : axes.get ⟨i, hi2⟩ with _ | ⟨c, cs⟩
    · rw [hx] at hlen2
      simp at hlen2
    · rfl

/-- Claim C8: converting a POINT array's coordinates from SEPARATED to
INTERLEAVED layout and back yields bit-identical axis buffers; coordinate
layout affects only physical arrangement, never the logical values. -/
theorem claim_C8_coord_layout_roundtrip (d : Dimensions) (n : Nat)
    (axes : List (List Nat)) (hlen : axes.length = dimCount d)
    (hall : ∀ a ∈ axes, a.length = n) :
    interToSep (dimCount d) (sepToInter axes) = axes := by
  have hdn : 0 < dimCount d := by cases d <;> decide
  rcases axes with _ | ⟨a, rest⟩
  · simp at hlen
    omega
  · have ha : a.length = n := hall a (List.mem_cons_self a rest)
    show interToSep (dimCount d) (interleaveN a.length (a :: rest)) = a :: rest
    rw [ha]
    exact interRound (dimCount d) hdn n (a :: rest) hlen hall

/-- Claim C8 witness: the README separated point buffers x = 1 2 3,
y = 3 4 5 survive the layout round-trip bit-identically. -/
theorem claim_C8_coord_layout_roundtrip_witness :
    [[1, 2, 3], [3, 4, 5]].length = dimCount .xy ∧
    (∀ a ∈ [[1, 2, 3], [3, 4, 5]], List.length a = 3) ∧
    interToSep (dimCount .xy) (sepToInter [[1, 2, 3], [3, 4, 5]]) =
      [[1, 2, 3], [3, 4, 5]] :=
  ⟨by decide, by decide,
   claim_C8_coord_layout_roundtrip .xy 3 [[1, 2, 3], [3, 4, 5]] (by decide) (by decide)⟩

/-- Digit characters decode back to their digit value. -/
theorem digitChar_val {d : Nat} (h : d < 10) : (Nat.digitChar d).toNat - 48 = d := by
  interval_cases d <;> decide

/-- Digit characters are digits and none of the delimiter characters. -/
theorem digitChar_class {d : Nat} (h : d < 10) :
    (Nat.digitChar d).isDigit = true ∧ Nat.digitChar d ≠ ' ' ∧
      Nat.digitChar d ≠ '(' ∧ Nat.digitChar d ≠ ')' ∧ Nat.digitChar d ≠ ',' := by
  interval_cases d <;> exact ⟨by decide, by decide, by decide, by decide, by decide⟩

/-- Keyword characters are word characters and none of the delimiter or
digit characters. -/
theorem upper_class : ∀ c ∈ upChars, isWordChar c = true ∧ c.isDigit = false ∧
    c ≠ ' ' ∧ c ≠ '(' ∧ c ≠ ')' ∧ c ≠ ',' := by decide

/-- Numerals render to a nonempty run of digit characters. -/
theorem natChars_spec (n : Nat) :
    natChars n ≠ [] ∧ ∀ c ∈ natChars n, ∃ d, d < 10 ∧ c = Nat.digitChar d := by
  by_cases h : n = 0
  · subst h
    refine ⟨by decide, ?_⟩
    intro c hc
    simp [natChars] at hc
    exact ⟨0, by decide, by rw [hc]; decide⟩
  · unfold natChars
    rw [if_neg h]
    constructor
    · simp only [ne_eq, List.reverse_eq_nil_iff, List.map_eq_nil_iff]
      exact Nat.digits_ne_nil_iff_ne_zero.mpr h
    · intro c hc
      simp only [List.mem_reverse, List.mem_map] at hc
      obtain ⟨d, hd, rfl⟩ := hc
      exact ⟨d, Nat.digits_lt_base (by norm_num) hd, rfl⟩

/-- The decimal rendering of a numeral parses back to the numeral. -/
theorem digitsVal_natChars (n : Nat) : digitsVal (natChars n) = n := by
  by_cases h : n = 0
  · subst h
    decide
  · unfold natChars digitsVal
    rw [if_neg h, List.foldl_reverse, List.foldr_map]
    have key : ∀ L : List Nat, (∀ d ∈ L, d < 10) →
        L.foldr (fun d acc => acc * 10 + ((Nat.digitChar d).toNat - 48)) 0 =
          Nat.ofDigits 10 L := by
      intro L hL
      induction L with
      | nil => simp [Nat.ofDigits_nil]
      | cons d L ih =>
        rw [List.foldr_cons, ih (fun x hx => hL x (List.mem_cons_of_mem _ hx)),
          Nat.ofDigits_cons, digitChar_val (hL d (List.mem_cons_self _ _))]
        omega
    rw [key _ (fun x hx => Nat.digits_lt_base (by norm_num) hx)]
    exact_mod_cast Nat.ofDigits_digits 10 n

/-- The numeral scanner consumes exactly a run of digit characters. -/
theorem lexNum_run (ds : List Char) (hds : ∀ c ∈ ds, c.isDigit = true) :
    ∀ acc rest, lexNum acc (ds ++ ' ' :: rest) =
      (ds.foldl (fun a c => a * 10 + (c.toNat - 48)) acc, ' ' :: rest) := by
  induction ds with
  | nil =>
    intro acc rest
    show lexNum acc (' ' :: rest) = _
    simp [lexNum]
  | cons c cs ih =>
    intro acc rest
    show lexNum acc (c :: (cs ++ ' ' :: rest)) = _
    rw [show lexNum acc (c :: (cs ++ ' ' :: rest)) =
      if c.isDigit then lexNum (acc * 10 + (c.toNat - 48)) (cs ++ ' ' :: rest)
      else (acc, c :: (cs ++ ' ' :: rest)) from rfl]
    rw [if_pos (hds c (List.mem_cons_self _ _)),
      ih (fun x hx => hds x (List.mem_cons_of_mem _ hx))]
    rfl

/-- The keyword scanner consumes exactly a run of keyword characters. -/
theorem lexWord_run (ws : List Char) (hws : ∀ c ∈ ws, c ∈ upChars) :
    ∀ acc rest, lexWord acc (ws ++ ' ' :: rest) = (acc.reverse ++ ws, ' ' :: rest) := by
  induction ws with
  | nil =>
    intro acc rest
    show lexWord acc (' ' :: rest) = _
    simp [lexWord, isWordChar]
  | cons w ws ih =>
    intro acc rest
    have hw : isWordChar w = true := (upper_class w (hws w (List.mem_cons_self _ _))).1
    show lexWord acc (w :: (ws ++ ' ' :: rest)) = _
    rw [show lexWord acc (w :: (ws ++ ' ' :: rest)) =
      if isWordChar w then lexWord (w :: acc) (ws ++ ' ' :: rest)
      else (acc.reverse, w :: (ws ++ ' ' :: rest)) from rfl]
    rw [if_pos hw, ih (fun x hx => hws x (List.mem_cons_of_mem _ hx))]
    simp

/-- Tokenizer step: skip a space. -/
theorem lexGo_space (f : Nat) (cs : List Char) : lexGo (f + 1) (' ' :: cs) = lexGo f cs := rfl

/-- Tokenizer step: an opening parenthesis. -/
theorem lexGo_lp (f : Nat) (cs : List Char) :
    lexGo (f + 1) ('(' :: cs) = (lexGo f cs).map (fun ts => .lp :: ts) := rfl

/-- Tokenizer step: a closing parenthesis. -/
theorem lexGo_rp (f : Nat) (cs : List Char) :
    lexGo (f + 1) (')' :: cs) = (lexGo f cs).map (fun ts => .rp :: ts) := rfl

/-- Tokenizer step: a comma. -/
theorem lexGo_comma (f : Nat) (cs : List Char) :
    lexGo (f + 1) (',' :: cs) = (lexGo f cs).map (fun ts => .comma :: ts) := rfl

/-- Tokenizer step: a digit starts a numeral token. -/
theorem lexGo_digit (f : Nat) (c : Char) (cs : List Char) (h1 : c.isDigit = true)
    (h2 : c ≠ ' ') (h3 : c ≠ '(') (h4 : c ≠ ')') (h5 : c ≠ ',') :
    lexGo (f + 1) (c :: cs) =
      (lexGo f (lexNum (c.toNat - 48) cs).2).map
        (fun ts => .num (lexNum (c.toNat - 48) cs).1 :: ts) := by
  simp only [lexGo]
  rw [if_neg h2, if_neg h3, if_neg h4, if_neg h5, if_pos h1]

/-- Tokenizer step: a letter starts a keyword token. -/
theorem lexGo_word (f : Nat) (c : Char) (cs : List Char) (h1 : isWordChar c = true)
    (h1d : c.isDigit = false) (h2 : c ≠ ' ') (h3 : c ≠ '(') (h4 : c ≠ ')') (h5 : c ≠ ',') :
    lexGo (f + 1) (c :: cs) =
      (lexGo f (lexWord [c] cs).2).map
        (fun ts => .word (String.mk (lexWord [c] cs).1) :: ts) := by
  simp only [lexGo]
  rw [if_neg h2, if_neg h3, if_neg h4, if_neg h5, if_neg (by simp [h1d]), if_pos h1]

/-- Rendering the empty token stream. -/
theorem renderToks_nil : renderToks [] = [] := rfl

/-- Rendering one token then the rest. -/
theorem renderToks_cons (t : Tok) (ts : List Tok) :
    renderToks (t :: ts) = tokChars t ++ ' ' :: renderToks ts := by
  show (tokChars t ++ [' ']) ++ renderToks ts = _
  simp

/-- Tokenizing a rendered well-formed token stream recovers the tokens. -/
theorem lexGo_render (ts : List Tok) (wf : ∀ t ∈ ts, TokWF t) :
    ∀ fuel, (renderToks ts).length < fuel → lexGo fuel (renderToks ts) = some ts := by
  induction ts with
  | nil =>
    intro fuel hf
    rcases fuel with _ | f
    · simp [renderToks_nil] at hf
    · rfl
  | cons t ts ih =>
    intro fuel hf
    rw [renderToks_cons] at hf ⊢
    have hwf := wf t (List.mem_cons_self _ _)
    have hwfs : ∀ x ∈ ts, TokWF x := fun x hx => wf x (List.mem_cons_of_mem _ hx)
    cases t with
    | lp =>
      rcases fuel with _ | f
      · simp at hf
      rcases f with _ | f2
      · simp [tokChars] at hf
      show lexGo (f2 + 1 + 1) ('(' :: ' ' :: renderToks ts) = _
      rw [lexGo_lp, lexGo_space, ih hwfs f2 (by simp [tokChars] at hf; omega)]
      rfl
    | rp =>
      rcases fuel with _ | f
      · simp at hf
      rcases f with _ | f2
      · simp [tokChars] at hf
      show lexGo (f2 + 1 + 1) (')' :: ' ' :: renderToks ts) = _
      rw [lexGo_rp, lexGo_space, ih hwfs f2 (by simp [tokChars] at hf; omega)]
      rfl
    | comma =>
      rcases fuel with _ | f
      · simp at hf
      rcases f with _ | f2
      · simp [tokChars] at hf
      show lexGo (f2 + 1 + 1) (',' :: ' ' :: renderToks ts) = _
      rw [lexGo_comma, lexGo_space, ih hwfs f2 (by simp [tokChars] at hf; omega)]
      rfl
    | num n =>
      obtain ⟨hne, hdig⟩ := natChars_spec n
      rcases hnc : natChars n with _ | ⟨c, ds⟩
      · exact absurd hnc hne
      obtain ⟨dc, hdc, hceq⟩ := hdig c (by rw [hnc]; exact List.mem_cons_self _ _)
      have hcl := digitChar_class hdc
      have hdsdig : ∀ x ∈ ds, x.isDigit = true := by
        intro x hx
        obtain ⟨dx, hdx, hxeq⟩ := hdig x (by rw [hnc]; exact List.mem_cons_of_mem _ hx)
        rw [hxeq]
        exact (digitChar_class hdx).1
      rcases fuel with _ | f
      · simp at hf
      have hchars : tokChars (Tok.num n) = c :: ds := hnc
      rw [hchars] at hf ⊢
      rw [List.cons_append,
        lexGo_digit f c (ds ++ ' ' :: renderToks ts)
          (by rw [hceq]; exact hcl.1) (by rw [hceq]; exact hcl.2.1)
          (by rw [hceq]; exact hcl.2.2.1) (by rw [hceq]; exact hcl.2.2.2.1)
          (by rw [hceq]; exact hcl.2.2.2.2),
        lexNum_run ds hdsdig]
      have hval : ds.foldl (fun a x => a * 10 + (x.toNat - 48)) (c.toNat - 48) = n := by
        have hd := digitsVal_natChars n
        rw [hnc] at hd
        have : digitsVal (c :: ds) =
            ds.foldl (fun a x => a * 10 + (x.toNat - 48)) (c.toNat - 48) := by
          show (c :: ds).foldl (fun a x => a * 10 + (x.toNat - 48)) 0 = _
          rw [List.foldl_cons]
          norm_num
        rw [this] at hd
        exact hd
      rcases f with _ | f2
      · simp at hf
      rw [hval, lexGo_space, ih hwfs f2 (by simp at hf; omega)]
      rfl
    | word s =>
      obtain ⟨hne, hup⟩ := hwf
      rcases hsd : s.data with _ | ⟨c, ws⟩
      · exact absurd hsd hne
      have hcup := hup c (by rw [hsd]; exact List.mem_cons_self _ _)
      have hcl := upper_class c hcup
      have hwsup : ∀ x ∈ ws, x ∈ upChars := fun x hx =>
        hup x (by rw [hsd]; exact List.mem_cons_of_mem _ hx)
      rcases fuel with _ | f
      · simp at hf
      have hchars : tokChars (Tok.word s) = c :: ws := hsd
      rw [hchars] at hf ⊢
      rw [List.cons_append,
        lexGo_word f c (ws ++ ' ' :: renderToks ts) hcl.1 hcl.2.1 hcl.2.2.1
          hcl.2.2.2.1 hcl.2.2.2.2.1 hcl.2.2.2.2.2,
        lexWord_run ws hwsup]
      have hstr : String.mk (([c].reverse ++ ws : List Char)) = s := by
        have : ([c].reverse ++ ws : List Char) = c :: ws := by simp
        rw [this, ← hsd]
      rcases f with _ | f2
      · simp at hf
      rw [hstr, lexGo_space, ih hwfs f2 (by simp at hf; omega)]
      rfl

/-- Tokenizing rendered well-formed tokens always succeeds. -/
theorem lexChars_render (ts : List Tok) (wf : ∀ t ∈ ts, TokWF t) :
    lexChars (renderToks ts) = some ts :=
  lexGo_render ts wf ((renderToks ts).length + 1) (Nat.lt_succ_self _)

/-- Structural induction for geometries through nested collections. -/
theorem Geom.indOn {motive : Geom → Prop}
    (hpt : ∀ v, motive (.point v))
    (hls : ∀ vs, motive (.linestring vs))
    (hpg : ∀ rs, motive (.polygon rs))
    (hmp : ∀ vs, motive (.multipoint vs))
    (hml : ∀ ls, motive (.multilinestring ls))
    (hmg : ∀ ps, motive (.multipolygon ps))
    (hc : ∀ gs, (∀ g ∈ gs, motive g) → motive (.collection gs)) :
    ∀ g, motive g
  | .point v => hpt v
  | .linestring vs => hls vs
  | .polygon rs => hpg rs
  | .multipoint vs => hmp vs
  | .multilinestring ls => hml ls
  | .multipolygon ps => hmg ps
  | .collection gs =>
    hc gs (fun g hg =>
      have : sizeOf g < sizeOf (Geom.collection gs) := by
        have h := List.sizeOf_lt_of_mem hg
        simp only [Geom.collection.sizeOf_spec]
        omega
      Geom.indOn hpt hls hpg hmp hml hmg hc g)
termination_by g => sizeOf g

/-- Parsing the rendered coordinates of a vertex of the right arity. -/
theorem pVert_ser (v : Vert) : ∀ (dn : Nat), v.length = dn → ∀ rest,
    pVert dn (vertToks v ++ rest) = .ok (v, rest) := by
  induction v with
  | nil =>
    intro dn h rest
    subst h
    rfl
  | cons x xs ih =>
    intro dn h rest
    subst h
    show pVert (xs.length + 1) (.num x :: (xs.map Tok.num ++ rest)) = _
    rw [show pVert (xs.length + 1) (.num x :: (xs.map Tok.num ++ rest)) =
      (match pVert xs.length (xs.map Tok.num ++ rest) with
       | .ok (v, r) => .ok (x :: v, r)
       | .error e => .error e) from rfl]
    have hx := ih xs.length rfl rest
    rw [show vertToks xs = xs.map Tok.num from rfl] at hx
    rw [hx]

/-- Parsing a rendered parenthesized vertex. -/
theorem pParenVert_ser (dn : Nat) (v : Vert) (h : v.length = dn) (rest : List Tok) :
    pParenVert dn (parenGroup (vertToks v) ++ rest) = .ok (v, rest) := by
  show pParenVert dn (.lp :: ((vertToks v ++ [.rp]) ++ rest)) = _
  rw [List.append_assoc, List.singleton_append]
  simp only [pParenVert, pVert_ser v dn h]

/-- Parsing the rendered tail of a comma-separated list. -/
theorem pSepTail_ser {α : Type} (pe : List Tok → Except ParseErr (α × List Tok))
    (se : α → List Tok) (L : Nat) :
    ∀ (xs : List α),
      (∀ y ∈ xs, ∀ r : List Tok, (se y ++ r).length ≤ L → pe (se y ++ r) = .ok (y, r)) →
      ∀ (fuel : Nat), xs.length ≤ fuel →
      ∀ rest, ((xs.map (fun y => Tok.comma :: se y)).flatten ++ .rp :: rest).length ≤ L →
        pSepTail pe fuel ((xs.map (fun y => Tok.comma :: se y)).flatten ++ .rp :: rest) =
          .ok (xs, rest) := by
  intro xs
  induction xs with
  | nil =>
    intro _ fuel _ rest _
    show pSepTail pe fuel (.rp :: rest) = _
    cases fuel <;> rfl
  | cons x xs ih =>
    intro He fuel hfuel rest hL
    rcases fuel with _ | f
    · simp at hfuel
    simp only [List.map_cons, List.flatten_cons, List.cons_append, List.append_assoc]
    simp only [List.map_cons, List.flatten_cons, List.cons_append, List.append_assoc] at hL
    have hlen : (se x ++ ((xs.map (fun y => Tok.comma :: se y)).flatten ++
        Tok.rp :: rest)).length ≤ L := by
      simp only [List.length_cons, List.length_append] at hL ⊢
      omega
    have hpe := He x (List.mem_cons_self _ _) _ hlen
    have htail := ih (fun y hy => He y (List.mem_cons_of_mem _ hy)) f
      (by simpa using Nat.le_of_succ_le_succ hfuel) rest
      (by simp only [List.length_cons, List.length_append] at hL ⊢; omega)
    simp only [pSepTail, hpe, htail]

/-- Parsing a rendered nonempty parenthesized comma-separated list. -/
theorem pGroup_ser {α : Type} (pe : List Tok → Except ParseErr (α × List Tok))
    (se : α → List Tok) (L : Nat) (x : α) (xs : List α)
    (He : ∀ y ∈ x :: xs, ∀ r : List Tok, (se y ++ r).length ≤ L →
      pe (se y ++ r) = .ok (y, r))
    (fuel : Nat) (hfuel : xs.length ≤ fuel) (rest : List Tok)
    (hL : (parenGroup (commaJoin ((x :: xs).map se)) ++ rest).length ≤ L) :
    pGroup pe fuel (parenGroup (commaJoin ((x :: xs).map se)) ++ rest) =
      .ok (x :: xs, rest) := by
  have hshape : parenGroup (commaJoin ((x :: xs).map se)) ++ rest =
      .lp :: (se x ++ ((xs.map (fun y => Tok.comma :: se y)).flatten ++ .rp :: rest)) := by
    show .lp :: ((se x ++ ((xs.map se).map (fun y => Tok.comma :: y)).flatten ++ [.rp]) ++ rest) = _
    rw [List.map_map]
    simp [List.append_assoc, Function.comp_def]
  rw [hshape]
  rw [hshape] at hL
  have hlen : (se x ++ ((xs.map (fun y => Tok.comma :: se y)).flatten ++
      Tok.rp :: rest)).length ≤ L := by
    simp only [List.length_cons, List.length_append] at hL ⊢
    omega
  have hpe := He x (List.mem_cons_self _ _) _ hlen
  have htail := pSepTail_ser pe se L xs (fun y hy => He y (List.mem_cons_of_mem _ hy))
    fuel hfuel rest
    (by simp only [List.length_cons, List.length_append] at hL ⊢; omega)
  simp only [pGroup, hpe, htail]

/-- A comma-separated list of nonempty runs has at least one token per
element. -/
theorem commaJoin_length_ge (ls : List (List Tok)) (h : ∀ l ∈ ls, 1 ≤ l.length) :
    ls.length ≤ (commaJoin ls).length := by
  cases ls with
  | nil => simp
  | cons x xs =>
    have hflat : ∀ ys : List (List Tok),
        ys.length ≤ ((ys.map (fun y => Tok.comma :: y)).flatten).length := by
      intro ys
      induction ys with
      | nil => simp
      | cons z zs ihz =>
        simp only [List.map_cons, List.flatten_cons, List.length_append, List.length_cons]
        omega
    have hx := h x (List.mem_cons_self _ _)
    simp only [commaJoin, List.length_append, List.length_cons]
    have := hflat xs
    omega

/-- The dimensionality tag parses back before a parenthesized body. -/
theorem pDims_lp (d : Dimensions) (ts : List Tok) :
    pDims (dimsToks d ++ .lp :: ts) = (d, .lp :: ts) := by
  cases d <;> rfl

/-- The dimensionality tag parses back before an EMPTY body. -/
theorem pDims_empty (d : Dimensions) (ts : List Tok) :
    pDims (dimsToks d ++ .word "EMPTY" :: ts) = (d, .word "EMPTY" :: ts) := by
  cases d <;> rfl

/-- The EMPTY keyword is recognized. -/
theorem pEmpty_word (ts : List Tok) : pEmpty (.word "EMPTY" :: ts) = some ts := rfl

/-- An opening parenthesis is not EMPTY. -/
theorem pEmpty_lp (ts : List Tok) : pEmpty (.lp :: ts) = none := rfl

/-- A rendered empty point body parses back. -/
theorem pPointBody_empty (dn : Nat) (ts : List Tok) :
    pPointBody dn (.word "EMPTY" :: ts) = .ok (none, ts) := rfl

/-- A rendered nonempty point body parses back. -/
theorem pPointBody_vert (dn : Nat) (v : Vert) (h : v.length = dn) (ts : List Tok) :
    pPointBody dn (parenGroup (vertToks v) ++ ts) = .ok (some v, ts) := by
  show pPointBody dn (.lp :: ((vertToks v ++ [.rp]) ++ ts)) = _
  rw [List.append_assoc, List.singleton_append]
  simp only [pPointBody, pVert_ser v dn h]

/-- The dimensionality tag parses back before any parenthesized group. -/
theorem pDims_group (d : Dimensions) (inner ts : List Tok) :
    pDims (dimsToks d ++ (parenGroup inner ++ ts)) = (d, parenGroup inner ++ ts) := by
  cases d <;> rfl

/-- A parenthesized group is not the EMPTY keyword. -/
theorem pEmpty_group (inner ts : List Tok) : pEmpty (parenGroup inner ++ ts) = none := rfl

/-- Parser step on the POINT keyword. -/
theorem pGeom_step_point (f : Nat) (ts : List Tok) :
    pGeom (f + 1) (.word "POINT" :: ts) =
      (match pPointBody (dimCount (pDims ts).1) (pDims ts).2 with
       | .ok (v, r) => .ok (((pDims ts).1, .point v), r)
       | .error e => .error e) := rfl

/-- Parser step on the LINESTRING keyword. -/
theorem pGeom_step_linestring (f : Nat) (ts : List Tok) :
    pGeom (f + 1) (.word "LINESTRING" :: ts) =
      (match pEmpty (pDims ts).2 with
       | some r => .ok (((pDims ts).1, .linestring []), r)
       | none =>
         match pGroup (pVert (dimCount (pDims ts).1)) f (pDims ts).2 with
         | .ok (vs, r) => .ok (((pDims ts).1, .linestring vs), r)
         | .error e => .error e) := rfl

/-- Parser step on the POLYGON keyword. -/
theorem pGeom_step_polygon (f : Nat) (ts : List Tok) :
    pGeom (f + 1) (.word "POLYGON" :: ts) =
      (match pEmpty (pDims ts).2 with
       | some r => .ok (((pDims ts).1, .polygon []), r)
       | none =>
         match pGroup (pGroup (pVert (dimCount (pDims ts).1)) f) f (pDims ts).2 with
         | .ok (rs, r) => .ok (((pDims ts).1, .polygon rs), r)
         | .error e => .error e) := rfl

/-- Parser step on the MULTIPOINT keyword. -/
theorem pGeom_step_multipoint (f : Nat) (ts : List Tok) :
    pGeom (f + 1) (.word "MULTIPOINT" :: ts) =
      (match pEmpty (pDims ts).2 with
       | some r => .ok (((pDims ts).1, .multipoint []), r)
       | none =>
         match pGroup (pParenVert (dimCount (pDims ts).1)) f (pDims ts).2 with
         | .ok (vs, r) => .ok (((pDims ts).1, .multipoint vs), r)
         | .error e => .error e) := rfl

/-- Parser step on the MULTILINESTRING keyword. -/
theorem pGeom_step_multilinestring (f : Nat) (ts : List Tok) :
    pGeom (f + 1) (.word "MULTILINESTRING" :: ts) =
      (match pEmpty (pDims ts).2 with
       | some r => .ok (((pDims ts).1, .multilinestring []), r)
       | none =>
         match pGroup (pGroup (pVert (dimCount (pDims ts).1)) f) f (pDims ts).2 with
         | .ok (ls, r) => .ok (((pDims ts).1, .multilinestring ls), r)
         | .error e => .error e) := rfl

/-- Parser step on the MULTIPOLYGON keyword. -/
theorem pGeom_step_multipolygon (f : Nat) (ts : List Tok) :
    pGeom (f + 1) (.word "MULTIPOLYGON" :: ts) =
      (match pEmpty (pDims ts).2 with
       | some r => .ok (((pDims ts).1, .multipolygon []), r)
       | none =>
         match pGroup (pGroup (pGroup (pVert (dimCount (pDims ts).1)) f) f) f (pDims ts).2 with
         | .ok (ps, r) => .ok (((pDims ts).1, .multipolygon ps), r)
         | .error e => .error e) := rfl

/-- Parser step on the GEOMETRYCOLLECTION keyword. -/
theorem pGeom_step_collection (f : Nat) (ts : List Tok) :
    pGeom (f + 1) (.word "GEOMETRYCOLLECTION" :: ts) =
      (match pEmpty (pDims ts).2 with
       | some r => .ok (((pDims ts).1, .collection []), r)
       | none =>
         match pGroup (pChild (pGeom f) (pDims ts).1) f (pDims ts).2 with
         | .ok (gs, r) => .ok (((pDims ts).1, .collection gs), r)
         | .error e => .error e) := rfl

/-- Sub-geometry token runs are exactly the serializations of the members. -/
theorem wktToksList_eq_map (d : Dimensions) :
    ∀ gs : List Geom, wktToksList d gs = gs.map (wktToks d) := by
  intro gs
  induction gs with
  | nil => rfl
  | cons g gs ih => simp [wktToksList, ih]

/-- Validity of a sub-geometry list gives validity of each member. -/
theorem validGList_mem {d : Dimensions} :
    ∀ {gs : List Geom}, validGList d gs = true → ∀ g ∈ gs, validG d g = true := by
  intro gs
  induction gs with
  | nil =>
    intro _ g hg
    simp at hg
  | cons g0 gs ih =>
    intro h g hg
    rw [show validGList d (g0 :: gs) = (validG d g0 && validGList d gs) from rfl] at h
    rw [Bool.and_eq_true] at h
    rcases List.mem_cons.mp hg with rfl | hg
    · exact h.1
    · exact ih h.2 g hg

/-- Every geometry serializes to at least one token. -/
theorem wktToks_length_pos (d : Dimensions) (g : Geom) : 1 ≤ (wktToks d g).length := by
  cases g with
  | point v => cases v <;> simp [wktToks]
  | linestring vs => cases vs <;> simp [wktToks]
  | polygon rs => cases rs <;> simp [wktToks]
  | multipoint vs => cases vs <;> simp [wktToks]
  | multilinestring ls => cases ls <;> simp [wktToks]
  | multipolygon ps => cases ps <;> simp [wktToks]
  | collection gs => cases gs <;> simp [wktToks]

/-- Tokens of a parenthesized group. -/
theorem mem_parenGroup {t : Tok} {inner : List Tok} (h : t ∈ parenGroup inner) :
    t = .lp ∨ t = .rp ∨ t ∈ inner := by
  simp only [parenGroup, List.mem_cons, List.mem_append, List.mem_singleton] at h
  tauto

/-- Tokens of a comma-separated join. -/
theorem mem_commaJoin {t : Tok} : ∀ {ls : List (List Tok)}, t ∈ commaJoin ls →
    t = .comma ∨ ∃ l ∈ ls, t ∈ l := by
  intro ls h
  cases ls with
  | nil => simp [commaJoin] at h
  | cons x xs =>
    simp only [commaJoin, List.mem_append, List.mem_flatten, List.mem_map] at h
    rcases h with h | ⟨l, ⟨y, hy, rfl⟩, ht⟩
    · exact Or.inr ⟨x, List.mem_cons_self _ _, h⟩
    · rcases List.mem_cons.mp ht with rfl | ht
      · exact Or.inl rfl
      · exact Or.inr ⟨y, List.mem_cons_of_mem _ hy, ht⟩

/-- Vertex tokens are numerals, hence well-formed. -/
theorem wf_vertToks {t : Tok} {v : Vert} (h : t ∈ vertToks v) : TokWF t := by
  obtain ⟨n, _, rfl⟩ := List.mem_map.mp h
  trivial

/-- Vertex-list tokens are well-formed. -/
theorem wf_vertsToks {t : Tok} {vs : List Vert} (h : t ∈ vertsToks vs) : TokWF t := by
  rcases mem_parenGroup h with rfl | rfl | h
  · trivial
  · trivial
  rcases mem_commaJoin h with rfl | ⟨l, hl, ht⟩
  · trivial
  obtain ⟨v, _, rfl⟩ := List.mem_map.mp hl
  exact wf_vertToks ht

/-- Ring-list tokens are well-formed. -/
theorem wf_ringsToks {t : Tok} {rs : List (List Vert)} (h : t ∈ ringsToks rs) : TokWF t := by
  rcases mem_parenGroup h with rfl | rfl | h
  · trivial
  · trivial
  rcases mem_commaJoin h with rfl | ⟨l, hl, ht⟩
  · trivial
  obtain ⟨r, _, rfl⟩ := List.mem_map.mp hl
  exact wf_vertsToks ht

/-- Polygon-list tokens are well-formed. -/
theorem wf_polysToks {t : Tok} {ps : List (List (List Vert))} (h : t ∈ polysToks ps) :
    TokWF t := by
  rcases mem_parenGroup h with rfl | rfl | h
  · trivial
  · trivial
  rcases mem_commaJoin h with rfl | ⟨l, hl, ht⟩
  · trivial
  obtain ⟨p, _, rfl⟩ := List.mem_map.mp hl
  exact wf_ringsToks ht

/-- Multipoint-body tokens are well-formed. -/
theorem wf_mpointToks {t : Tok} {vs : List Vert} (h : t ∈ mpointToks vs) : TokWF t := by
  rcases mem_parenGroup h with rfl | rfl | h
  · trivial
  · trivial
  rcases mem_commaJoin h with rfl | ⟨l, hl, ht⟩
  · trivial
  obtain ⟨v, _, rfl⟩ := List.mem_map.mp hl
  rcases mem_parenGroup ht with rfl | rfl | ht
  · trivial
  · trivial
  exact wf_vertToks ht

/-- Dimensionality-tag tokens are well-formed. -/
theorem wf_dimsToks {t : Tok} {d : Dimensions} (h : t ∈ dimsToks d) : TokWF t := by
  cases d <;> simp [dimsToks] at h <;> subst h <;> exact ⟨by decide, by decide⟩

/-- Every token emitted by the WKT serializer is well-formed. -/
theorem wktToks_wf : ∀ g : Geom, ∀ (d : Dimensions), ∀ t ∈ wktToks d g, TokWF t := by
  intro g
  induction g using Geom.indOn with
  | hpt v =>
    intro d t ht
    cases v with
    | none =>
      rcases List.mem_cons.mp ht with rfl | ht
      · exact ⟨by decide, by decide⟩
      rcases List.mem_append.mp ht with ht | ht
      · exact wf_dimsToks ht
      · simp at ht
        subst ht
        exact ⟨by decide, by decide⟩
    | some v =>
      rcases List.mem_cons.mp ht with rfl | ht
      · exact ⟨by decide, by decide⟩
      rcases List.mem_append.mp ht with ht | ht
      · exact wf_dimsToks ht
      · rcases mem_parenGroup ht with rfl | rfl | ht
        · trivial
        · trivial
        · exact wf_vertToks ht
  | hls vs =>
    intro d t ht
    cases vs with
    | nil =>
      rcases List.mem_cons.mp ht with rfl | ht
      · exact ⟨by decide, by decide⟩
      rcases List.mem_append.mp ht with ht | ht
      · exact wf_dimsToks ht
      · simp at ht
        subst ht
        exact ⟨by decide, by decide⟩
    | cons v vs =>
      rcases List.mem_cons.mp ht with rfl | ht
      · exact ⟨by decide, by decide⟩
      rcases List.mem_append.mp ht with ht | ht
      · exact wf_dimsToks ht
      · exact wf_vertsToks ht
  | hpg rs =>
    intro d t ht
    cases rs with
    | nil =>
      rcases List.mem_cons.mp ht with rfl | ht
      · exact ⟨by decide, by decide⟩
      rcases List.mem_append.mp ht with ht | ht
      · exact wf_dimsToks ht
      · simp at ht
        subst ht
        exact ⟨by decide, by decide⟩
    | cons r rs =>
      rcases List.mem_cons.mp ht with rfl | ht
      · exact ⟨by decide, by decide⟩
      rcases List.mem_append.mp ht with ht | ht
      · exact wf_dimsToks ht
      · exact wf_ringsToks ht
  | hmp vs =>
    intro d t ht
    cases vs with
    | nil =>
      rcases List.mem_cons.mp ht with rfl | ht
      · exact ⟨by decide, by decide⟩
      rcases List.mem_append.mp ht with ht | ht
      · exact wf_dimsToks ht
      · simp at ht
        subst ht
        exact ⟨by decide, by decide⟩
    | cons v vs =>
      rcases List.mem_cons.mp ht with rfl | ht
      · exact ⟨by decide, by decide⟩
      rcases List.mem_append.mp ht with ht | ht
      · exact wf_dimsToks ht
      · exact wf_mpointToks ht
  | hml ls =>
    intro d t ht
    cases ls with
    | nil =>
      rcases List.mem_cons.mp ht with rfl | ht
      · exact ⟨by decide, by decide⟩
      rcases List.mem_append.mp ht with ht | ht
      · exact wf_dimsToks ht
      · simp at ht
        subst ht
        exact ⟨by decide, by decide⟩
    | cons l ls =>
      rcases List.mem_cons.mp ht with rfl | ht
      · exact ⟨by decide, by decide⟩
      rcases List.mem_append.mp ht with ht | ht
      · exact wf_dimsToks ht
      · exact wf_ringsToks ht
  | hmg ps =>
    intro d t ht
    cases ps with
    | nil =>
      rcases List.mem_cons.mp ht with rfl | ht
      · exact ⟨by decide, by decide⟩
      rcases List.mem_append.mp ht with ht | ht
      · exact wf_dimsToks ht
      · simp at ht
        subst ht
        exact ⟨by decide, by decide⟩
    | cons p ps =>
      rcases List.mem_cons.mp ht with rfl | ht
      · exact ⟨by decide, by decide⟩
      rcases List.mem_append.mp ht with ht | ht
      · exact wf_dimsToks ht
      · exact wf_polysToks ht
  | hc gs hih =>
    intro d t ht
    cases gs with
    | nil =>
      rcases List.mem_cons.mp ht with rfl | ht
      · exact ⟨by decide, by decide⟩
      rcases List.mem_append.mp ht with ht | ht
      · exact wf_dimsToks ht
      · simp at ht
        subst ht
        exact ⟨by decide, by decide⟩
    | cons g gs =>
      rcases List.mem_cons.mp ht with rfl | ht
      · exact ⟨by decide, by decide⟩
      rcases List.mem_append.mp ht with ht | ht
      · exact wf_dimsToks ht
      rcases mem_parenGroup ht with rfl | rfl | ht
      · trivial
      · trivial
      rcases mem_commaJoin ht with rfl | ⟨l, hl, htl⟩
      · trivial
      rw [wktToksList_eq_map] at hl
      obtain ⟨g2, hg2, rfl⟩ := List.mem_map.mp hl
      exact hih g2 hg2 d t htl

/-- Parser run on POINT with the dimensionality already resolved. -/
theorem pGeom_run_point (f : Nat) (ts ts1 : List Tok) (d : Dimensions)
    (hd : pDims ts = (d, ts1)) :
    pGeom (f + 1) (.word "POINT" :: ts) =
      (match pPointBody (dimCount d) ts1 with
       | .ok (v, r) => .ok ((d, .point v), r)
       | .error e => .error e) := by
  rw [pGeom_step_point, hd]

/-- Parser run on LINESTRING with the dimensionality already resolved. -/
theorem pGeom_run_linestring (f : Nat) (ts ts1 : List Tok) (d : Dimensions)
    (hd : pDims ts = (d, ts1)) :
    pGeom (f + 1) (.word "LINESTRING" :: ts) =
      (match pEmpty ts1 with
       | some r => .ok ((d, .linestring []), r)
       | none =>
         match pGroup (pVert (dimCount d)) f ts1 with
         | .ok (vs, r) => .ok ((d, .linestring vs), r)
         | .error e => .error e) := by
  rw [pGeom_step_linestring, hd]

/-- Parser run on POLYGON with the dimensionality already resolved. -/
theorem pGeom_run_polygon (f : Nat) (ts ts1 : List Tok) (d : Dimensions)
    (hd : pDims ts = (d, ts1)) :
    pGeom (f + 1) (.word "POLYGON" :: ts) =
      (match pEmpty ts1 with
       | some r => .ok ((d, .polygon []), r)
       | none =>
         match pGroup (pGroup (pVert (dimCount d)) f) f ts1 with
         | .ok (rs, r) => .ok ((d, .polygon rs), r)
         | .error e => .error e) := by
  rw [pGeom_step_polygon, hd]

/-- Parser run on MULTIPOINT with the dimensionality already resolved. -/
theorem pGeom_run_multipoint (f : Nat) (ts ts1 : List Tok) (d : Dimensions)
    (hd : pDims ts = (d, ts1)) :
    pGeom (f + 1) (.word "MULTIPOINT" :: ts) =
      (match pEmpty ts1 with
       | some r => .ok ((d, .multipoint []), r)
       | none =>
         match pGroup (pParenVert (dimCount d)) f ts1 with
         | .ok (vs, r) => .ok ((d, .multipoint vs), r)
         | .error e => .error e) := by
  rw [pGeom_step_multipoint, hd]

/-- Parser run on MULTILINESTRING with the dimensionality already resolved. -/
theorem pGeom_run_multilinestring (f : Nat) (ts ts1 : List Tok) (d : Dimensions)
    (hd : pDims ts = (d, ts1)) :
    pGeom (f + 1) (.word "MULTILINESTRING" :: ts) =
      (match pEmpty ts1 with
       | some r => .ok ((d, .multilinestring []), r)
       | none =>
         match pGroup (pGroup (pVert (dimCount d)) f) f ts1 with
         | .ok (ls, r) => .ok ((d, .multilinestring ls), r)
         | .error e => .error e) := by
  rw [pGeom_step_multilinestring, hd]

/-- Parser run on MULTIPOLYGON with the dimensionality already resolved. -/
theorem pGeom_run_multipolygon (f : Nat) (ts ts1 : List Tok) (d : Dimensions)
    (hd : pDims ts = (d, ts1)) :
    pGeom (f + 1) (.word "MULTIPOLYGON" :: ts) =
      (match pEmpty ts1 with
       | some r => .ok ((d, .multipolygon []), r)
       | none =>
         match pGroup (pGroup (pGroup (pVert (dimCount d)) f) f) f ts1 with
         | .ok (ps, r) => .ok ((d, .multipolygon ps), r)
         | .error e => .error e) := by
  rw [pGeom_step_multipolygon, hd]

/-- Parser run on GEOMETRYCOLLECTION with the dimensionality resolved. -/
theorem pGeom_run_collection (f : Nat) (ts ts1 : List Tok) (d : Dimensions)
    (hd : pDims ts = (d, ts1)) :
    pGeom (f + 1) (.word "GEOMETRYCOLLECTION" :: ts) =
      (match pEmpty ts1 with
       | some r => .ok ((d, .collection []), r)
       | none =>
         match pGroup (pChild (pGeom f) d) f ts1 with
         | .ok (gs, r) => .ok ((d, .collection gs), r)
         | .error e => .error e) := by
  rw [pGeom_step_collection, hd]

/-- A well-formed vertex has the arity of its dimension set. -/
theorem vertOk_length {d : Dimensions} {v : Vert} (h : vertOk d v = true) :
    v.length = dimCount d := by
  unfold vertOk at h
  rw [Bool.and_eq_true] at h
  exact of_decide_eq_true h.1

/-- A well-formed vertex has 64-bit coordinate patterns. -/
theorem vertOk_bound {d : Dimensions} {v : Vert} (h : vertOk d v = true) :
    ∀ x ∈ v, x < 2 ^ 64 := by
  unfold vertOk at h
  rw [Bool.and_eq_true] at h
  intro x hx
  exact of_decide_eq_true (List.all_eq_true.mp h.2 x hx)

/-- A point-capable vertex is well-formed and not the sentinel. -/
theorem pointVertOk_split {d : Dimensions} {v : Vert} (h : pointVertOk d v = true) :
    vertOk d v = true ∧ v ≠ sentinelVert d := by
  unfold pointVertOk at h
  rw [Bool.and_eq_true] at h
  refine ⟨h.1, ?_⟩
  have h2 := h.2
  simp only [Bool.not_eq_eq_eq_not, Bool.not_true] at h2
  exact beq_eq_false_iff_ne.mp h2

/-- A well-formed ring is nonempty with well-formed vertices. -/
theorem ringOk_split {d : Dimensions} {r : List Vert} (h : ringOk d r = true) :
    r ≠ [] ∧ ∀ v ∈ r, vertOk d v = true := by
  unfold ringOk at h
  rw [Bool.and_eq_true] at h
  constructor
  · intro he
    subst he
    simp at h
  · exact fun v hv => List.all_eq_true.mp h.2 v hv

/-- A bounded list fits a 32-bit count. -/
theorem cntOk_lt {α : Type} {l : List α} (h : cntOk l = true) : l.length < 2 ^ 32 :=
  of_decide_eq_true h

/-- Every dimension set has at least one axis. -/
theorem dimCount_pos (d : Dimensions) : 1 ≤ dimCount d := by
  cases d <;> decide

/-- Length of a parenthesized group. -/
theorem parenGroup_length (inner : List Tok) :
    (parenGroup inner).length = inner.length + 2 := by
  simp [parenGroup]

/-- The WKT token parser inverts the serializer on valid geometries. -/
theorem pGeom_ser : ∀ g : Geom, ∀ d : Dimensions, validG d g = true →
    ∀ (rest : List Tok) (fuel : Nat), (wktToks d g ++ rest).length ≤ fuel →
      pGeom fuel (wktToks d g ++ rest) = .ok ((d, g), rest) := by
  intro g
  induction g using Geom.indOn with
  | hpt v =>
    intro d hv rest fuel hfuel
    rcases fuel with _ | f
    · have := wktToks_length_pos d (.point v)
      rw [List.length_append] at hfuel
      omega
    cases v with
    | none =>
      have hshape : wktToks d (.point none) ++ rest =
          .word "POINT" :: (dimsToks d ++ (.word "EMPTY" :: rest)) := by
        show (.word "POINT" :: (dimsToks d ++ [.word "EMPTY"])) ++ rest = _
        simp
      rw [hshape, pGeom_run_point f _ _ d (pDims_empty d rest), pPointBody_empty]
    | some v =>
      have hlen : v.length = dimCount d :=
        vertOk_length (pointVertOk_split (by
          rw [show validG d (.point (some v)) = pointVertOk d v from rfl] at hv
          exact hv)).1
      have hshape : wktToks d (.point (some v)) ++ rest =
          .word "POINT" :: (dimsToks d ++ (parenGroup (vertToks v) ++ rest)) := by
        show (.word "POINT" :: (dimsToks d ++ parenGroup (vertToks v))) ++ rest = _
        simp
      rw [hshape, pGeom_run_point f _ _ d (pDims_group d _ rest),
        pPointBody_vert (dimCount d) v hlen rest]
  | hls vs =>
    intro d hv rest fuel hfuel
    rcases fuel with _ | f
    · have := wktToks_length_pos d (.linestring vs)
      rw [List.length_append] at hfuel
      omega
    cases vs with
    | nil =>
      have hshape : wktToks d (.linestring []) ++ rest =
          .word "LINESTRING" :: (dimsToks d ++ (.word "EMPTY" :: rest)) := by
        show (.word "LINESTRING" :: (dimsToks d ++ [.word "EMPTY"])) ++ rest = _
        simp
      rw [hshape, pGeom_run_linestring f _ _ d (pDims_empty d rest), pEmpty_word]
    | cons v vs =>
      have hv2 : cntOk (v :: vs) = true ∧ (v :: vs).all (vertOk d) = true := by
        rw [show validG d (.linestring (v :: vs)) =
          (cntOk (v :: vs) && (v :: vs).all (vertOk d)) from rfl,
          Bool.and_eq_true] at hv
        exact hv
      have hAll : ∀ y ∈ v :: vs, vertOk d y = true :=
        fun y hy => List.all_eq_true.mp hv2.2 y hy
      have hshape : wktToks d (.linestring (v :: vs)) ++ rest =
          .word "LINESTRING" :: (dimsToks d ++
            (parenGroup (commaJoin ((v :: vs).map vertToks)) ++ rest)) := by
        show (.word "LINESTRING" :: (dimsToks d ++ vertsToks (v :: vs))) ++ rest = _
        simp [vertsToks]
      rw [hshape] at hfuel ⊢
      have hcj : (v :: vs).length ≤ (commaJoin ((v :: vs).map vertToks)).length := by
        refine le_trans (le_of_eq (by simp)) (commaJoin_length_ge _ ?_)
        intro l hl
        obtain ⟨y, hy, rfl⟩ := List.mem_map.mp hl
        have h1 := vertOk_length (hAll y hy)
        have h2 := dimCount_pos d
        simp only [vertToks, List.length_map]
        omega
      have hb : vs.length ≤ f ∧
          (parenGroup (commaJoin ((v :: vs).map vertToks)) ++ rest).length ≤ f := by
        simp only [parenGroup_length, List.length_append, List.length_cons] at hfuel ⊢
        simp only [List.length_cons] at hcj
        omega
      rw [pGeom_run_linestring f _ _ d (pDims_group d _ rest), pEmpty_group,
        pGroup_ser (pVert (dimCount d)) vertToks f v vs
          (fun y hy r2 hr2 => pVert_ser y (dimCount d) (vertOk_length (hAll y hy)) r2)
          f hb.1 rest hb.2]
  | hpg rs =>
    intro d hv rest fuel hfuel
    rcases fuel with _ | f
    · have := wktToks_length_pos d (.polygon rs)
      rw [List.length_append] at hfuel
      omega
    cases rs with
    | nil =>
      have hshape : wktToks d (.polygon []) ++ rest =
          .word "POLYGON" :: (dimsToks d ++ (.word "EMPTY" :: rest)) := by
        show (.word "POLYGON" :: (dimsToks d ++ [.word "EMPTY"])) ++ rest = _
        simp
      rw [hshape, pGeom_run_polygon f _ _ d (pDims_empty d rest), pEmpty_word]
    | cons r rs =>
      have hv2 : cntOk (r :: rs) = true ∧
          (r :: rs).all (fun q => cntOk q && ringOk d q) = true := by
        rw [show validG d (.polygon (r :: rs)) =
          (cntOk (r :: rs) && (r :: rs).all (fun q => cntOk q && ringOk d q)) from rfl,
          Bool.and_eq_true] at hv
        exact hv
      have hring : ∀ q ∈ r :: rs, q ≠ [] ∧ ∀ y ∈ q, vertOk d y = true := by
        intro q hq
        have h1 := List.all_eq_true.mp hv2.2 q hq
        rw [Bool.and_eq_true] at h1
        exact ringOk_split h1.2
      have Hering : ∀ q ∈ r :: rs, ∀ rr : List Tok, (vertsToks q ++ rr).length ≤ f →
          pGroup (pVert (dimCount d)) f (vertsToks q ++ rr) = .ok (q, rr) := by
        intro q hq rr hrr
        obtain ⟨hqne, hqv⟩ := hring q hq
        rcases q with _ | ⟨w, ws⟩
        · exact absurd rfl hqne
        rw [show vertsToks (w :: ws) =
          parenGroup (commaJoin ((w :: ws).map vertToks)) from rfl] at hrr ⊢
        have hcj : (w :: ws).length ≤ (commaJoin ((w :: ws).map vertToks)).length := by
          refine le_trans (le_of_eq (by simp)) (commaJoin_length_ge _ ?_)
          intro l hl
          obtain ⟨y, hy, rfl⟩ := List.mem_map.mp hl
          have h1 := vertOk_length (hqv y hy)
          have h2 := dimCount_pos d
          simp only [vertToks, List.length_map]
          omega
        have hbi : ws.length ≤ f ∧
            (parenGroup (commaJoin ((w :: ws).map vertToks)) ++ rr).length ≤ f := by
          simp only [parenGroup_length, List.length_append, List.length_cons] at hrr ⊢
          simp only [List.length_cons] at hcj
          omega
        exact pGroup_ser (pVert (dimCount d)) vertToks f w ws
          (fun y hy r2 hr2 => pVert_ser y (dimCount d) (vertOk_length (hqv y hy)) r2)
          f hbi.1 rr hbi.2
      have hshape : wktToks d (.polygon (r :: rs)) ++ rest =
          .word "POLYGON" :: (dimsToks d ++
            (parenGroup (commaJoin ((r :: rs).map vertsToks)) ++ rest)) := by
        show (.word "POLYGON" :: (dimsToks d ++ ringsToks (r :: rs))) ++ rest = _
        simp [ringsToks]
      rw [hshape] at hfuel ⊢
      have hcj : (r :: rs).length ≤ (commaJoin ((r :: rs).map vertsToks)).length := by
        refine le_trans (le_of_eq (by simp)) (commaJoin_length_ge _ ?_)
        intro l hl
        obtain ⟨q, _, rfl⟩ := List.mem_map.mp hl
        rw [show vertsToks q = parenGroup (commaJoin (q.map vertToks)) from rfl,
          parenGroup_length]
        omega
      have hb : rs.length ≤ f ∧
          (parenGroup (commaJoin ((r :: rs).map vertsToks)) ++ rest).length ≤ f := by
        simp only [parenGroup_length, List.length_append, List.length_cons] at hfuel ⊢
        simp only [List.length_cons] at hcj
        omega
      rw [pGeom_run_polygon f _ _ d (pDims_group d _ rest), pEmpty_group,
        pGroup_ser (pGroup (pVert (dimCount d)) f) vertsToks f r rs Hering f hb.1 rest hb.2]
  | hmp vs =>
    intro d hv rest fuel hfuel
    rcases fuel with _ | f
    · have := wktToks_length_pos d (.multipoint vs)
      rw [List.length_append] at hfuel
      omega
    cases vs with
    | nil =>
      have hshape : wktToks d (.multipoint []) ++ rest =
          .word "MULTIPOINT" :: (dimsToks d ++ (.word "EMPTY" :: rest)) := by
        show (.word "MULTIPOINT" :: (dimsToks d ++ [.word "EMPTY"])) ++ rest = _
        simp
      rw [hshape, pGeom_run_multipoint f _ _ d (pDims_empty d rest), pEmpty_word]
    | cons v vs =>
      have hv2 : cntOk (v :: vs) = true ∧ (v :: vs).all (pointVertOk d) = true := by
        rw [show validG d (.multipoint (v :: vs)) =
          (cntOk (v :: vs) && (v :: vs).all (pointVertOk d)) from rfl,
          Bool.and_eq_true] at hv
        exact hv
      have hAll : ∀ y ∈ v :: vs, vertOk d y = true :=
        fun y hy => (pointVertOk_split (List.all_eq_true.mp hv2.2 y hy)).1
      have hshape : wktToks d (.multipoint (v :: vs)) ++ rest =
          .word "MULTIPOINT" :: (dimsToks d ++
            (parenGroup (commaJoin ((v :: vs).map (fun y => parenGroup (vertToks y)))) ++
              rest)) := by
        show (.word "MULTIPOINT" :: (dimsToks d ++ mpointToks (v :: vs))) ++ rest = _
        simp [mpointToks]
      rw [hshape] at hfuel ⊢
      have hcj : (v :: vs).length ≤
          (commaJoin ((v :: vs).map (fun y => parenGroup (vertToks y)))).length := by
        refine le_trans (le_of_eq (by simp)) (commaJoin_length_ge _ ?_)
        intro l hl
        obtain ⟨y, hy, rfl⟩ := List.mem_map.mp hl
        rw [parenGroup_length]
        omega
      have hb : vs.length ≤ f ∧
          (parenGroup (commaJoin ((v :: vs).map (fun y => parenGroup (vertToks y)))) ++
            rest).length ≤ f := by
        simp only [parenGroup_length, List.length_append, List.length_cons] at hfuel ⊢
        simp only [List.length_cons] at hcj
        omega
      rw [pGeom_run_multipoint f _ _ d (pDims_group d _ rest), pEmpty_group,
        pGroup_ser (pParenVert (dimCount d)) (fun y => parenGroup (vertToks y)) f v vs
          (fun y hy r2 hr2 =>
            pParenVert_ser (dimCount d) y (vertOk_length (hAll y hy)) r2)
          f hb.1 rest hb.2]
  | hml ls =>
    intro d hv rest fuel hfuel
    rcases fuel with _ | f
    · have := wktToks_length_pos d (.multilinestring ls)
      rw [List.length_append] at hfuel
      omega
    cases ls with
    | nil =>
      have hshape : wktToks d (.multilinestring []) ++ rest =
          .word "MULTILINESTRING" :: (dimsToks d ++ (.word "EMPTY" :: rest)) := by
        show (.word "MULTILINESTRING" :: (dimsToks d ++ [.word "EMPTY"])) ++ rest = _
        simp
      rw [hshape, pGeom_run_multilinestring f _ _ d (pDims_empty d rest), pEmpty_word]
    | cons r rs =>
      have hv2 : cntOk (r :: rs) = true ∧
          (r :: rs).all (fun q => cntOk q && ringOk d q) = true := by
        rw [show validG d (.multilinestring (r :: rs)) =
          (cntOk (r :: rs) && (r :: rs).all (fun q => cntOk q && ringOk d q)) from rfl,
          Bool.and_eq_true] at hv
        exact hv
      have hring : ∀ q ∈ r :: rs, q ≠ [] ∧ ∀ y ∈ q, vertOk d y = true := by
        intro q hq
        have h1 := List.all_eq_true.mp hv2.2 q hq
        rw [Bool.and_eq_true] at h1
        exact ringOk_split h1.2
      have Hering : ∀ q ∈ r :: rs, ∀ rr : List Tok, (vertsToks q ++ rr).length ≤ f →
          pGroup (pVert (dimCount d)) f (vertsToks q ++ rr) = .ok (q, rr) := by
        intro q hq rr hrr
        obtain ⟨hqne, hqv⟩ := hring q hq
        rcases q with _ | ⟨w, ws⟩
        · exact absurd rfl hqne
        rw [show vertsToks (w :: ws) =
          parenGroup (commaJoin ((w :: ws).map vertToks)) from rfl] at hrr ⊢
        have hcj : (w :: ws).length ≤ (commaJoin ((w :: ws).map vertToks)).length := by
          refine le_trans (le_of_eq (by simp)) (commaJoin_length_ge _ ?_)
          intro l hl
          obtain ⟨y, hy, rfl⟩ := List.mem_map.mp hl
          have h1 := vertOk_length (hqv y hy)
          have h2 := dimCount_pos d
          simp only [vertToks, List.length_map]
          omega
        have hbi : ws.length ≤ f ∧
            (parenGroup (commaJoin ((w :: ws).map vertToks)) ++ rr).length ≤ f := by
          simp only [parenGroup_length, List.length_append, List.length_cons] at hrr ⊢
          simp only [List.length_cons] at hcj
          omega
        exact pGroup_ser (pVert (dimCount d)) vertToks f w ws
          (fun y hy r2 hr2 => pVert_ser y (dimCount d) (vertOk_length (hqv y hy)) r2)
          f hbi.1 rr hbi.2
      have hshape : wktToks d (.multilinestring (r :: rs)) ++ rest =
          .word "MULTILINESTRING" :: (dimsToks d ++
            (parenGroup (commaJoin ((r :: rs).map vertsToks)) ++ rest)) := by
        show (.word "MULTILINESTRING" :: (dimsToks d ++ ringsToks (r :: rs))) ++ rest = _
        simp [ringsToks]
      rw [hshape] at hfuel ⊢
      have hcj : (r :: rs).length ≤ (commaJoin ((r :: rs).map vertsToks)).length := by
        refine le_trans (le_of_eq (by simp)) (commaJoin_length_ge _ ?_)
        intro l hl
        obtain ⟨q, _, rfl⟩ := List.mem_map.mp hl
        rw [show vertsToks q = parenGroup (commaJoin (q.map vertToks)) from rfl,
          parenGroup_length]
        omega
      have hb : rs.length ≤ f ∧
          (parenGroup (commaJoin ((r :: rs).map vertsToks)) ++ rest).length ≤ f := by
        simp only [parenGroup_length, List.length_append, List.length_cons] at hfuel ⊢
        simp only [List.length_cons] at hcj
        omega
      rw [pGeom_run_multilinestring f _ _ d (pDims_group d _ rest), pEmpty_group,
        pGroup_ser (pGroup (pVert (dimCount d)) f) vertsToks f r rs Hering f hb.1 rest hb.2]
  | hmg ps =>
    intro d hv rest fuel hfuel
    rcases fuel with _ | f
    · have := wktToks_length_pos d (.multipolygon ps)
      rw [List.length_append] at hfuel
      omega
    cases ps with
    | nil =>
      have hshape : wktToks d (.multipolygon []) ++ rest =
          .word "MULTIPOLYGON" :: (dimsToks d ++ (.word "EMPTY" :: rest)) := by
        show (.word "MULTIPOLYGON" :: (dimsToks d ++ [.word "EMPTY"])) ++ rest = _
        simp
      rw [hshape, pGeom_run_multipolygon f _ _ d (pDims_empty d rest), pEmpty_word]
    | cons p ps =>
      have hv2 : cntOk (p :: ps) = true ∧
          (p :: ps).all (fun q =>
            cntOk q && (!q.isEmpty && q.all (fun w => cntOk w && ringOk d w))) = true := by
        rw [show validG d (.multipolygon (p :: ps)) =
          (cntOk (p :: ps) && (p :: ps).all (fun q =>
            cntOk q && (!q.isEmpty && q.all (fun w => cntOk w && ringOk d w)))) from rfl,
          Bool.and_eq_true] at hv
        exact hv
      have hpoly : ∀ q ∈ p :: ps, q ≠ [] ∧
          ∀ w ∈ q, w ≠ [] ∧ ∀ y ∈ w, vertOk d y = true := by
        intro q hq
        have h1 := List.all_eq_true.mp hv2.2 q hq
        rw [Bool.and_eq_true, Bool.and_eq_true] at h1
        constructor
        · intro he
          subst he
          simp at h1
        · intro w hw
          have h2 := List.all_eq_true.mp h1.2.2 w hw
          rw [Bool.and_eq_true] at h2
          exact ringOk_split h2.2
      have Hepoly : ∀ q ∈ p :: ps, ∀ rr : List Tok, (ringsToks q ++ rr).length ≤ f →
          pGroup (pGroup (pVert (dimCount d)) f) f (ringsToks q ++ rr) = .ok (q, rr) := by
        intro q hq rr hrr
        obtain ⟨hqne, hqrings⟩ := hpoly q hq
        rcases q with _ | ⟨w, ws⟩
        · exact absurd rfl hqne
        rw [show ringsToks (w :: ws) =
          parenGroup (commaJoin ((w :: ws).map vertsToks)) from rfl] at hrr ⊢
        have Hering : ∀ u ∈ w :: ws, ∀ r2 : List Tok, (vertsToks u ++ r2).length ≤ f →
            pGroup (pVert (dimCount d)) f (vertsToks u ++ r2) = .ok (u, r2) := by
          intro u hu r2 hr2
          obtain ⟨hune, huv⟩ := hqrings u hu
          rcases u with _ | ⟨z, zs⟩
          · exact absurd rfl hune
          rw [show vertsToks (z :: zs) =
            parenGroup (commaJoin ((z :: zs).map vertToks)) from rfl] at hr2 ⊢
          have hcj : (z :: zs).length ≤ (commaJoin ((z :: zs).map vertToks)).length := by
            refine le_trans (le_of_eq (by simp)) (commaJoin_length_ge _ ?_)
            intro l hl
            obtain ⟨y, hy, rfl⟩ := List.mem_map.mp hl
            have h1 := vertOk_length (huv y hy)
            have h2 := dimCount_pos d
            simp only [vertToks, List.length_map]
            omega
          have hbi : zs.length ≤ f ∧
              (parenGroup (commaJoin ((z :: zs).map vertToks)) ++ r2).length ≤ f := by
            simp only [parenGroup_length, List.length_append, List.length_cons] at hr2 ⊢
            simp only [List.length_cons] at hcj
            omega
          exact pGroup_ser (pVert (dimCount d)) vertToks f z zs
            (fun y hy r3 hr3 => pVert_ser y (dimCount d) (vertOk_length (huv y hy)) r3)
            f hbi.1 r2 hbi.2
        have hcj : (w :: ws).length ≤ (commaJoin ((w :: ws).map vertsToks)).length := by
          refine le_trans (le_of_eq (by simp)) (commaJoin_length_ge _ ?_)
          intro l hl
          obtain ⟨u, _, rfl⟩ := List.mem_map.mp hl
          rw [show vertsToks u = parenGroup (commaJoin (u.map vertToks)) from rfl,
            parenGroup_length]
          omega
        have hbi : ws.length ≤ f ∧
            (parenGroup (commaJoin ((w :: ws).map vertsToks)) ++ rr).length ≤ f := by
          simp only [parenGroup_length, List.length_append, List.length_cons] at hrr ⊢
          simp only [List.length_cons] at hcj
          omega
        exact pGroup_ser (pGroup (pVert (dimCount d)) f) vertsToks f w ws Hering
          f hbi.1 rr hbi.2
      have hshape : wktToks d (.multipolygon (p :: ps)) ++ rest =
          .word "MULTIPOLYGON" :: (dimsToks d ++
            (parenGroup (commaJoin ((p :: ps).map ringsToks)) ++ rest)) := by
        show (.word "MULTIPOLYGON" :: (dimsToks d ++ polysToks (p :: ps))) ++ rest = _
        simp [polysToks]
      rw [hshape] at hfuel ⊢
      have hcj : (p :: ps).length ≤ (commaJoin ((p :: ps).map ringsToks)).length := by
        refine le_trans (le_of_eq (by simp)) (commaJoin_length_ge _ ?_)
        intro l hl
        obtain ⟨q, _, rfl⟩ := List.mem_map.mp hl
        rw [show ringsToks q = parenGroup (commaJoin (q.map vertsToks)) from rfl,
          parenGroup_length]
        omega
      have hb : ps.length ≤ f ∧
          (parenGroup (commaJoin ((p :: ps).map ringsToks)) ++ rest).length ≤ f := by
        simp only [parenGroup_length, List.length_append, List.length_cons] at hfuel ⊢
        simp only [List.length_cons] at hcj
        omega
      rw [pGeom_run_multipolygon f _ _ d (pDims_group d _ rest), pEmpty_group,
        pGroup_ser (pGroup (pGroup (pVert (dimCount d)) f) f) ringsToks f p ps Hepoly
          f hb.1 rest hb.2]
  | hc gs hih =>
    intro d hv rest fuel hfuel
    rcases fuel with _ | f
    · have := wktToks_length_pos d (.collection gs)
      rw [List.length_append] at hfuel
      omega
    cases gs with
    | nil =>
      have hshape : wktToks d (.collection []) ++ rest =
          .word "GEOMETRYCOLLECTION" :: (dimsToks d ++ (.word "EMPTY" :: rest)) := by
        show (.word "GEOMETRYCOLLECTION" :: (dimsToks d ++ [.word "EMPTY"])) ++ rest = _
        simp
      rw [hshape, pGeom_run_collection f _ _ d (pDims_empty d rest), pEmpty_word]
    | cons g gs =>
      have hv2 : cntOk (g :: gs) = true ∧ validGList d (g :: gs) = true := by
        rw [show validG d (.collection (g :: gs)) =
          (cntOk (g :: gs) && validGList d (g :: gs)) from rfl, Bool.and_eq_true] at hv
        exact hv
      have hvmem := validGList_mem hv2.2
      have hshape : wktToks d (.collection (g :: gs)) ++ rest =
          .word "GEOMETRYCOLLECTION" :: (dimsToks d ++
            (parenGroup (commaJoin ((g :: gs).map (wktToks d))) ++ rest)) := by
        show (.word "GEOMETRYCOLLECTION" :: (dimsToks d ++
          parenGroup (commaJoin (wktToksList d (g :: gs))))) ++ rest = _
        rw [wktToksList_eq_map]
        simp
      rw [hshape] at hfuel ⊢
      have Hechild : ∀ g2 ∈ g :: gs, ∀ r : List Tok, (wktToks d g2 ++ r).length ≤ f →
          pChild (pGeom f) d (wktToks d g2 ++ r) = .ok (g2, r) := by
        intro g2 hg2 r hr
        have hrec := hih g2 hg2 d (hvmem g2 hg2) r f hr
        simp only [pChild, hrec]
        simp
      have hcj : (g :: gs).length ≤ (commaJoin ((g :: gs).map (wktToks d))).length := by
        refine le_trans (le_of_eq (by simp)) (commaJoin_length_ge _ ?_)
        intro l hl
        obtain ⟨g2, _, rfl⟩ := List.mem_map.mp hl
        exact wktToks_length_pos d g2
      have hb : gs.length ≤ f ∧
          (parenGroup (commaJoin ((g :: gs).map (wktToks d))) ++ rest).length ≤ f := by
        simp only [parenGroup_length, List.length_append, List.length_cons] at hfuel ⊢
        simp only [List.length_cons] at hcj
        omega
      rw [pGeom_run_collection f _ _ d (pDims_group d _ rest), pEmpty_group,
        pGroup_ser (pChild (pGeom f) d) (wktToks d) f g gs Hechild f hb.1 rest hb.2]

/-- The full WKT pipeline parses back exactly what it serialized. -/
theorem parseWkt_ser (d : Dimensions) (g : Geom) (hv : validG d g = true) :
    parseWkt (serializeWkt d g) = .ok (g.kindOf, d, g) := by
  have hlex : lexChars (String.mk (renderToks (wktToks d g))).data = some (wktToks d g) :=
    lexChars_render (wktToks d g) (wktToks_wf g d)
  have hp : pGeom ((wktToks d g).length + 1) (wktToks d g) = .ok ((d, g), []) := by
    have h := pGeom_ser g d hv [] ((wktToks d g).length + 1)
      (by rw [List.append_nil]; exact Nat.le_succ _)
    rw [List.append_nil] at h
    exact h
  rw [show serializeWkt d g = String.mk (renderToks (wktToks d g)) from rfl]
  unfold parseWkt
  rw [hlex]
  show parseWktToks (wktToks d g) = Except.ok (g.kindOf, d, g)
  unfold parseWktToks
  rw [hp]

/-- Assembling the little-endian bytes of a value below two to the 32 recovers it. -/
theorem asmLE_u32 {n : Nat} (h : n < 2 ^ 32) : asmLE (u32le n) = n := by
  simp only [u32le, asmLE]
  omega

/-- Assembling the little-endian bytes of a value below two to the 64 recovers it. -/
theorem asmLE_u64 {n : Nat} (h : n < 2 ^ 64) : asmLE (u64le n) = n := by
  simp only [u64le, asmLE]
  omega

/-- Reading exactly the length of a prefix returns that prefix. -/
theorem rdN_exact (xs : Bytes) : ∀ r : Bytes, rdN xs.length (xs ++ r) = .ok (xs, r) := by
  induction xs with
  | nil => intro r; rfl
  | cons b bs ih =>
    intro r
    show rdN (bs.length + 1) (b :: (bs ++ r)) = _
    unfold rdN
    rw [ih r]

/-- The little-endian 32-bit reader inverts the 32-bit writer. -/
theorem rdU32_ser {n : Nat} (h : n < 2 ^ 32) (r : Bytes) :
    rdU32 false (u32le n ++ r) = .ok (n, r) := by
  unfold rdU32
  rw [show (4 : Nat) = (u32le n).length from rfl, rdN_exact]
  show Except.ok (asmLE (u32le n), r) = _
  rw [asmLE_u32 h]

/-- The little-endian 64-bit reader inverts the 64-bit writer. -/
theorem rdU64_ser {n : Nat} (h : n < 2 ^ 64) (r : Bytes) :
    rdU64 false (u64le n ++ r) = .ok (n, r) := by
  unfold rdU64
  rw [show (8 : Nat) = (u64le n).length from rfl, rdN_exact]
  show Except.ok (asmLE (u64le n), r) = _
  rw [asmLE_u64 h]

/-- The vertex reader inverts the vertex writer on 64-bit scalars. -/
theorem rdVert_ser : ∀ v : Vert, (∀ x ∈ v, x < 2 ^ 64) →
    ∀ r : Bytes, rdVert false v.length (vertBytes v ++ r) = .ok (v, r) := by
  intro v
  induction v with
  | nil => intro _ r; rfl
  | cons x xs ih =>
    intro hb r
    have hsh : vertBytes (x :: xs) ++ r = u64le x ++ (vertBytes xs ++ r) := by
      simp only [vertBytes, List.map_cons, List.flatten_cons, List.append_assoc]
    rw [hsh]
    simp only [List.length_cons, rdVert,
      rdU64_ser (hb x (List.mem_cons_self _ _)),
      ih (fun y hy => hb y (List.mem_cons_of_mem _ hy))]

/-- The counted vertex-sequence reader inverts its writer. -/
theorem rdVerts_ser {d : Dimensions} : ∀ vs : List Vert, (∀ v ∈ vs, vertOk d v = true) →
    ∀ r : Bytes,
      rdVerts false (dimCount d) vs.length ((vs.map vertBytes).flatten ++ r) = .ok (vs, r) := by
  intro vs
  induction vs with
  | nil => intro _ r; rfl
  | cons v vs ih =>
    intro hb r
    have hv := hb v (List.mem_cons_self _ _)
    have hvert : ∀ rr : Bytes, rdVert false (dimCount d) (vertBytes v ++ rr) = .ok (v, rr) := by
      intro rr
      have h0 := rdVert_ser v (vertOk_bound hv) rr
      rwa [vertOk_length hv] at h0
    have hsh : ((v :: vs).map vertBytes).flatten ++ r =
        vertBytes v ++ ((vs.map vertBytes).flatten ++ r) := by
      simp only [List.map_cons, List.flatten_cons, List.append_assoc]
    rw [hsh]
    simp only [List.length_cons, rdVerts, hvert,
      ih (fun y hy => hb y (List.mem_cons_of_mem _ hy))]

/-- The counted ring-sequence reader inverts its writer. -/
theorem rdRings_ser {d : Dimensions} : ∀ rs : List (List Vert),
    (∀ q ∈ rs, cntOk q = true ∧ ∀ v ∈ q, vertOk d v = true) →
    ∀ r : Bytes,
      rdRings false (dimCount d) rs.length ((rs.map ringBytes).flatten ++ r) = .ok (rs, r) := by
  intro rs
  induction rs with
  | nil => intro _ r; rfl
  | cons q qs ih =>
    intro hb r
    have hq := hb q (List.mem_cons_self _ _)
    have hsh : ((q :: qs).map ringBytes).flatten ++ r =
        u32le q.length ++
          ((q.map vertBytes).flatten ++ ((qs.map ringBytes).flatten ++ r)) := by
      simp only [List.map_cons, List.flatten_cons, ringBytes, List.append_assoc]
    rw [hsh]
    simp only [List.length_cons, rdRings, rdU32_ser (cntOk_lt hq.1),
      rdVerts_ser q hq.2, ih (fun y hy => hb y (List.mem_cons_of_mem _ hy))]

/-- Decoding the ISO code of any concrete kind and dimension recovers both. -/
theorem decodeCode_iso : ∀ (k : GeometryKind) (d : Dimensions),
    k ≠ .geometry → decodeCode (isoCode k d) = some (k, d) := by
  decide

/-- The header reader inverts the header writer for concrete kinds. -/
theorem rdHdr_ser (k : GeometryKind) (d : Dimensions) (hk : k ≠ .geometry) (r : Bytes) :
    rdHdr (wkbHdr k d ++ r) = .ok ((false, k, d), r) := by
  have hiso : isoCode k d < 2 ^ 32 := by
    cases k <;> cases d <;> decide
  have hdec := decodeCode_iso k d hk
  show (if (1 : Nat) = 0 ∨ (1 : Nat) = 1 then
      match rdU32 false (u32le (isoCode k d) ++ r) with
      | .ok (code, r2) =>
        match decodeCode code with
        | some kd => Except.ok ((false, kd.1, kd.2), r2)
        | none => Except.error ParseErr.badCode
      | .error e => Except.error e
    else Except.error ParseErr.badCode) = Except.ok ((false, k, d), r)
  rw [if_pos (Or.inr rfl)]
  simp only [rdU32_ser hiso, hdec]

/-- The embedded-point-member reader inverts the multipoint body writer. -/
theorem rdMPoints_ser {d : Dimensions} : ∀ vs : List Vert,
    (∀ v ∈ vs, pointVertOk d v = true) →
    ∀ r : Bytes,
      rdMPoints d vs.length
        ((vs.map (fun v => wkbHdr .point d ++ vertBytes v)).flatten ++ r) = .ok (vs, r) := by
  intro vs
  induction vs with
  | nil => intro _ r; rfl
  | cons v vs ih =>
    intro hb r
    have hv := pointVertOk_split (hb v (List.mem_cons_self _ _))
    have hvert : ∀ rr : Bytes, rdVert false (dimCount d) (vertBytes v ++ rr) = .ok (v, rr) := by
      intro rr
      have h0 := rdVert_ser v (vertOk_bound hv.1) rr
      rwa [vertOk_length hv.1] at h0
    have hbeq : (v == sentinelVert d) = false := beq_eq_false_iff_ne.mpr hv.2
    have hsh : ((v :: vs).map (fun v => wkbHdr .point d ++ vertBytes v)).flatten ++ r =
        wkbHdr .point d ++ (vertBytes v ++
          ((vs.map (fun v => wkbHdr .point d ++ vertBytes v)).flatten ++ r)) := by
      simp only [List.map_cons, List.flatten_cons, List.append_assoc]
    rw [hsh]
    simp only [List.length_cons, rdMPoints, rdHdr_ser .point d (by decide)]
    simp [hvert, hbeq, ih (fun y hy => hb y (List.mem_cons_of_mem _ hy))]

/-- The embedded-linestring-member reader inverts the multilinestring body writer. -/
theorem rdMLines_ser {d : Dimensions} : ∀ ls : List (List Vert),
    (∀ q ∈ ls, cntOk q = true ∧ ∀ v ∈ q, vertOk d v = true) →
    ∀ r : Bytes,
      rdMLines d ls.length
        ((ls.map (fun l => wkbHdr .linestring d ++ ringBytes l)).flatten ++ r) =
          .ok (ls, r) := by
  intro ls
  induction ls with
  | nil => intro _ r; rfl
  | cons q qs ih =>
    intro hb r
    have hq := hb q (List.mem_cons_self _ _)
    have hsh : ((q :: qs).map (fun l => wkbHdr .linestring d ++ ringBytes l)).flatten ++ r =
        wkbHdr .linestring d ++ (u32le q.length ++ ((q.map vertBytes).flatten ++
          ((qs.map (fun l => wkbHdr .linestring d ++ ringBytes l)).flatten ++ r))) := by
      simp only [List.map_cons, List.flatten_cons, ringBytes, List.append_assoc]
    rw [hsh]
    simp only [List.length_cons, rdMLines, rdHdr_ser .linestring d (by decide)]
    simp [rdU32_ser (cntOk_lt hq.1), rdVerts_ser q hq.2,
      ih (fun y hy => hb y (List.mem_cons_of_mem _ hy))]

/-- The embedded-polygon-member reader inverts the multipolygon body writer. -/
theorem rdMPolys_ser {d : Dimensions} : ∀ ps : List (List (List Vert)),
    (∀ p ∈ ps, cntOk p = true ∧ ∀ q ∈ p, cntOk q = true ∧ ∀ v ∈ q, vertOk d v = true) →
    ∀ r : Bytes,
      rdMPolys d ps.length
        ((ps.map (fun p => wkbHdr .polygon d ++ ringsBytes p)).flatten ++ r) =
          .ok (ps, r) := by
  intro ps
  induction ps with
  | nil => intro _ r; rfl
  | cons p ps ih =>
    intro hb r
    have hp := hb p (List.mem_cons_self _ _)
    have hsh : ((p :: ps).map (fun p => wkbHdr .polygon d ++ ringsBytes p)).flatten ++ r =
        wkbHdr .polygon d ++ (u32le p.length ++ ((p.map ringBytes).flatten ++
          ((ps.map (fun p => wkbHdr .polygon d ++ ringsBytes p)).flatten ++ r))) := by
      simp only [List.map_cons, List.flatten_cons, ringsBytes, List.append_assoc]
    rw [hsh]
    simp only [List.length_cons, rdMPolys, rdHdr_ser .polygon d (by decide)]
    simp [rdU32_ser (cntOk_lt hp.1), rdRings_ser p hp.2,
      ih (fun y hy => hb y (List.mem_cons_of_mem _ hy))]

/-- Every serialized geometry occupies at least one byte. -/
theorem wkbBytes_length_pos (d : Dimensions) (g : Geom) : 1 ≤ (wkbBytes d g).length := by
  cases g with
  | point v =>
    cases v <;> (simp only [wkbBytes, wkbHdr, List.length_cons, List.length_append]; omega)
  | linestring vs =>
    simp only [wkbBytes, wkbHdr, List.length_cons, List.length_append]; omega
  | polygon rs =>
    simp only [wkbBytes, wkbHdr, List.length_cons, List.length_append]; omega
  | multipoint vs =>
    simp only [wkbBytes, wkbHdr, List.length_cons, List.length_append]; omega
  | multilinestring ls =>
    simp only [wkbBytes, wkbHdr, List.length_cons, List.length_append]; omega
  | multipolygon ps =>
    simp only [wkbBytes, wkbHdr, List.length_cons, List.length_append]; omega
  | collection gs =>
    simp only [wkbBytes, wkbHdr, List.length_cons, List.length_append]; omega

/-- The length of a written WKB header is five bytes. -/
theorem wkbHdr_length (k : GeometryKind) (d : Dimensions) : (wkbHdr k d).length = 5 := rfl

/-- The length of a written 32-bit count is four bytes. -/
theorem u32le_length (n : Nat) : (u32le n).length = 4 := rfl

/-- One step of the WKB parser after reading a point header. -/
theorem pWkb_run_point (f : Nat) (bs r : Bytes) (big : Bool) (d : Dimensions)
    (hh : rdHdr bs = .ok ((big, .point, d), r)) :
    pWkbGeom (f + 1) bs =
      match rdVert big (dimCount d) r with
      | .ok (v, r2) =>
          .ok ((d, .point (if v == sentinelVert d then none else some v)), r2)
      | .error e => .error e := by
  unfold pWkbGeom
  rw [hh]

/-- One step of the WKB parser after reading a linestring header. -/
theorem pWkb_run_linestring (f : Nat) (bs r : Bytes) (big : Bool) (d : Dimensions)
    (hh : rdHdr bs = .ok ((big, .linestring, d), r)) :
    pWkbGeom (f + 1) bs =
      match rdU32 big r with
      | .ok (n, r2) =>
        match rdVerts big (dimCount d) n r2 with
        | .ok (vs, r3) => .ok ((d, .linestring vs), r3)
        | .error e => .error e
      | .error e => .error e := by
  unfold pWkbGeom
  rw [hh]

/-- One step of the WKB parser after reading a polygon header. -/
theorem pWkb_run_polygon (f : Nat) (bs r : Bytes) (big : Bool) (d : Dimensions)
    (hh : rdHdr bs = .ok ((big, .polygon, d), r)) :
    pWkbGeom (f + 1) bs =
      match rdU32 big r with
      | .ok (n, r2) =>
        match rdRings big (dimCount d) n r2 with
        | .ok (rs, r3) => .ok ((d, .polygon rs), r3)
        | .error e => .error e
      | .error e => .error e := by
  unfold pWkbGeom
  rw [hh]

/-- One step of the WKB parser after reading a multipoint header. -/
theorem pWkb_run_multipoint (f : Nat) (bs r : Bytes) (big : Bool) (d : Dimensions)
    (hh : rdHdr bs = .ok ((big, .multipoint, d), r)) :
    pWkbGeom (f + 1) bs =
      match rdU32 big r with
      | .ok (n, r2) =>
        match rdMPoints d n r2 with
        | .ok (vs, r3) => .ok ((d, .multipoint vs), r3)
        | .error e => .error e
      | .error e => .error e := by
  unfold pWkbGeom
  rw [hh]

/-- One step of the WKB parser after reading a multilinestring header. -/
theorem pWkb_run_multilinestring (f : Nat) (bs r : Bytes) (big : Bool) (d : Dimensions)
    (hh : rdHdr bs = .ok ((big, .multilinestring, d), r)) :
    pWkbGeom (f + 1) bs =
      match rdU32 big r with
      | .ok (n, r2) =>
        match rdMLines d n r2 with
        | .ok (ls, r3) => .ok ((d, .multilinestring ls), r3)
        | .error e => .error e
      | .error e => .error e := by
  unfold pWkbGeom
  rw [hh]

/-- One step of the WKB parser after reading a multipolygon header. -/
theorem pWkb_run_multipolygon (f : Nat) (bs r : Bytes) (big : Bool) (d : Dimensions)
    (hh : rdHdr bs = .ok ((big, .multipolygon, d), r)) :
    pWkbGeom (f + 1) bs =
      match rdU32 big r with
      | .ok (n, r2) =>
        match rdMPolys d n r2 with
        | .ok (ps, r3) => .ok ((d, .multipolygon ps), r3)
        | .error e => .error e
      | .error e => .error e := by
  unfold pWkbGeom
  rw [hh]

/-- One step of the WKB parser after reading a collection header. -/
theorem pWkb_run_collection (f : Nat) (bs r : Bytes) (big : Bool) (d : Dimensions)
    (hh : rdHdr bs = .ok ((big, .geometrycollection, d), r)) :
    pWkbGeom (f + 1) bs =
      match rdU32 big r with
      | .ok (n, r2) =>
        match rdGeoms f d n r2 with
        | .ok (gs, r3) => .ok ((d, .collection gs), r3)
        | .error e => .error e
      | .error e => .error e := by
  unfold pWkbGeom
  rw [hh]

/-- The counted sub-geometry reader inverts the list writer, given that each
member round-trips with enough fuel. -/
theorem rdGeoms_ser {d : Dimensions} : ∀ gs : List Geom,
    (∀ g ∈ gs, ∀ (rest : Bytes) (fuel : Nat), (wkbBytes d g ++ rest).length ≤ fuel →
      pWkbGeom fuel (wkbBytes d g ++ rest) = .ok ((d, g), rest)) →
    ∀ (r : Bytes) (fuel : Nat), ((wkbList d gs).flatten ++ r).length < fuel →
      rdGeoms fuel d gs.length ((wkbList d gs).flatten ++ r) = .ok (gs, r) := by
  intro gs
  induction gs with
  | nil =>
    intro _ r fuel _
    cases fuel <;> rfl
  | cons g gs ih =>
    intro hih r fuel hf
    rcases fuel with _ | f
    · exact absurd hf (Nat.not_lt_zero _)
    have hsh : (wkbList d (g :: gs)).flatten ++ r =
        wkbBytes d g ++ ((wkbList d gs).flatten ++ r) := by
      simp only [wkbList, List.flatten_cons, List.append_assoc]
    rw [hsh] at hf ⊢
    have hpos := wkbBytes_length_pos d g
    have h1 : pWkbGeom f (wkbBytes d g ++ ((wkbList d gs).flatten ++ r)) =
        .ok ((d, g), (wkbList d gs).flatten ++ r) := by
      refine hih g (List.mem_cons_self _ _) _ f ?_
      simp only [List.length_append] at hf ⊢
      omega
    have h2 : rdGeoms f d gs.length ((wkbList d gs).flatten ++ r) = .ok (gs, r) := by
      refine ih (fun x hx => hih x (List.mem_cons_of_mem _ hx)) r f ?_
      simp only [List.length_append] at hf ⊢
      omega
    simp only [List.length_cons, rdGeoms, h1, h2]
    simp

/-- The WKB parser inverts the serializer on valid geometries. -/
theorem pWkbGeom_ser : ∀ g : Geom, ∀ d : Dimensions, validG d g = true →
    ∀ (rest : Bytes) (fuel : Nat), (wkbBytes d g ++ rest).length ≤ fuel →
      pWkbGeom fuel (wkbBytes d g ++ rest) = .ok ((d, g), rest) := by
  intro g
  induction g using Geom.indOn with
  | hpt v =>
    intro d hv rest fuel hfuel
    rcases fuel with _ | f
    · have := wkbBytes_length_pos d (.point v)
      rw [List.length_append] at hfuel
      omega
    cases v with
    | none =>
      have hsent : ∀ x ∈ sentinelVert d, x < 2 ^ 64 := by
        intro x hx
        rw [List.eq_of_mem_replicate hx]
        decide
      have hvert : rdVert false (dimCount d) (vertBytes (sentinelVert d) ++ rest) =
          .ok (sentinelVert d, rest) := by
        have h0 := rdVert_ser (sentinelVert d) hsent rest
        rwa [show (sentinelVert d).length = dimCount d from List.length_replicate _ _] at h0
      have hsh : wkbBytes d (.point none) ++ rest =
          wkbHdr .point d ++ (vertBytes (sentinelVert d) ++ rest) := by
        simp only [wkbBytes, List.append_assoc]
      rw [hsh, pWkb_run_point f _ _ false d (rdHdr_ser .point d (by decide) _)]
      simp [hvert]
    | some v =>
      have hsp := pointVertOk_split (by
        rw [show validG d (.point (some v)) = pointVertOk d v from rfl] at hv
        exact hv)
      have hvert : rdVert false (dimCount d) (vertBytes v ++ rest) = .ok (v, rest) := by
        have h0 := rdVert_ser v (vertOk_bound hsp.1) rest
        rwa [vertOk_length hsp.1] at h0
      have hbeq : (v == sentinelVert d) = false := beq_eq_false_iff_ne.mpr hsp.2
      have hsh : wkbBytes d (.point (some v)) ++ rest =
          wkbHdr .point d ++ (vertBytes v ++ rest) := by
        simp only [wkbBytes, List.append_assoc]
      rw [hsh, pWkb_run_point f _ _ false d (rdHdr_ser .point d (by decide) _)]
      simp [hvert, hbeq]
  | hls vs =>
    intro d hv rest fuel hfuel
    rcases fuel with _ | f
    · have := wkbBytes_length_pos d (.linestring vs)
      rw [List.length_append] at hfuel
      omega
    have hv2 : cntOk vs = true ∧ vs.all (vertOk d) = true := by
      rw [show validG d (.linestring vs) = (cntOk vs && vs.all (vertOk d)) from rfl,
        Bool.and_eq_true] at hv
      exact hv
    have hsh : wkbBytes d (.linestring vs) ++ rest =
        wkbHdr .linestring d ++ (u32le vs.length ++ ((vs.map vertBytes).flatten ++ rest)) := by
      simp only [wkbBytes, ringBytes, List.append_assoc]
    rw [hsh, pWkb_run_linestring f _ _ false d (rdHdr_ser .linestring d (by decide) _)]
    simp [rdU32_ser (cntOk_lt hv2.1),
      rdVerts_ser vs (fun y hy => List.all_eq_true.mp hv2.2 y hy)]
  | hpg rs =>
    intro d hv rest fuel hfuel
    rcases fuel with _ | f
    · have := wkbBytes_length_pos d (.polygon rs)
      rw [List.length_append] at hfuel
      omega
    have hv2 : cntOk rs = true ∧ rs.all (fun r => cntOk r && ringOk d r) = true := by
      rw [show validG d (.polygon rs) =
        (cntOk rs && rs.all (fun r => cntOk r && ringOk d r)) from rfl,
        Bool.and_eq_true] at hv
      exact hv
    have hrs : ∀ q ∈ rs, cntOk q = true ∧ ∀ v ∈ q, vertOk d v = true := by
      intro q hq
      have h1 := List.all_eq_true.mp hv2.2 q hq
      rw [Bool.and_eq_true] at h1
      exact ⟨h1.1, (ringOk_split h1.2).2⟩
    have hsh : wkbBytes d (.polygon rs) ++ rest =
        wkbHdr .polygon d ++ (u32le rs.length ++ ((rs.map ringBytes).flatten ++ rest)) := by
      simp only [wkbBytes, ringsBytes, List.append_assoc]
    rw [hsh, pWkb_run_polygon f _ _ false d (rdHdr_ser .polygon d (by decide) _)]
    simp [rdU32_ser (cntOk_lt hv2.1), rdRings_ser rs hrs]
  | hmp vs =>
    intro d hv rest fuel hfuel
    rcases fuel with _ | f
    · have := wkbBytes_length_pos d (.multipoint vs)
      rw [List.length_append] at hfuel
      omega
    have hv2 : cntOk vs = true ∧ vs.all (pointVertOk d) = true := by
      rw [show validG d (.multipoint vs) = (cntOk vs && vs.all (pointVertOk d)) from rfl,
        Bool.and_eq_true] at hv
      exact hv
    have hsh : wkbBytes d (.multipoint vs) ++ rest =
        wkbHdr .multipoint d ++ (u32le vs.length ++
          ((vs.map (fun v => wkbHdr .point d ++ vertBytes v)).flatten ++ rest)) := by
      simp only [wkbBytes, List.append_assoc]
    rw [hsh, pWkb_run_multipoint f _ _ false d (rdHdr_ser .multipoint d (by decide) _)]
    simp [rdU32_ser (cntOk_lt hv2.1),
      rdMPoints_ser vs (fun y hy => List.all_eq_true.mp hv2.2 y hy)]
  | hml ls =>
    intro d hv rest fuel hfuel
    rcases fuel with _ | f
    · have := wkbBytes_length_pos d (.multilinestring ls)
      rw [List.length_append] at hfuel
      omega
    have hv2 : cntOk ls = true ∧ ls.all (fun r => cntOk r && ringOk d r) = true := by
      rw [show validG d (.multilinestring ls) =
        (cntOk ls && ls.all (fun r => cntOk r && ringOk d r)) from rfl,
        Bool.and_eq_true] at hv
      exact hv
    have hls : ∀ q ∈ ls, cntOk q = true ∧ ∀ v ∈ q, vertOk d v = true := by
      intro q hq
      have h1 := List.all_eq_true.mp hv2.2 q hq
      rw [Bool.and_eq_true] at h1
      exact ⟨h1.1, (ringOk_split h1.2).2⟩
    have hsh : wkbBytes d (.multilinestring ls) ++ rest =
        wkbHdr .multilinestring d ++ (u32le ls.length ++
          ((ls.map (fun l => wkbHdr .linestring d ++ ringBytes l)).flatten ++ rest)) := by
      simp only [wkbBytes, List.append_assoc]
    rw [hsh,
      pWkb_run_multilinestring f _ _ false d (rdHdr_ser .multilinestring d (by decide) _)]
    simp [rdU32_ser (cntOk_lt hv2.1), rdMLines_ser ls hls]
  | hmg ps =>
    intro d hv rest fuel hfuel
    rcases fuel with _ | f
    · have := wkbBytes_length_pos d (.multipolygon ps)
      rw [List.length_append] at hfuel
      omega
    have hv2 : cntOk ps = true ∧
        ps.all (fun p =>
          cntOk p && (!p.isEmpty && p.all (fun r => cntOk r && ringOk d r))) = true := by
      rw [show validG d (.multipolygon ps) =
        (cntOk ps && ps.all (fun p =>
          cntOk p && (!p.isEmpty && p.all (fun r => cntOk r && ringOk d r)))) from rfl,
        Bool.and_eq_true] at hv
      exact hv
    have hps : ∀ p ∈ ps, cntOk p = true ∧
        ∀ q ∈ p, cntOk q = true ∧ ∀ v ∈ q, vertOk d v = true := by
      intro p hp
      have h1 := List.all_eq_true.mp hv2.2 p hp
      rw [Bool.and_eq_true, Bool.and_eq_true] at h1
      refine ⟨h1.1, ?_⟩
      intro q hq
      have h2 := List.all_eq_true.mp h1.2.2 q hq
      rw [Bool.and_eq_true] at h2
      exact ⟨h2.1, (ringOk_split h2.2).2⟩
    have hsh : wkbBytes d (.multipolygon ps) ++ rest =
        wkbHdr .multipolygon d ++ (u32le ps.length ++
          ((ps.map (fun p => wkbHdr .polygon d ++ ringsBytes p)).flatten ++ rest)) := by
      simp only [wkbBytes, List.append_assoc]
    rw [hsh, pWkb_run_multipolygon f _ _ false d (rdHdr_ser .multipolygon d (by decide) _)]
    simp [rdU32_ser (cntOk_lt hv2.1), rdMPolys_ser ps hps]
  | hc gs hih =>
    intro d hv rest fuel hfuel
    rcases fuel with _ | f
    · have := wkbBytes_length_pos d (.collection gs)
      rw [List.length_append] at hfuel
      omega
    have hv2 : cntOk gs = true ∧ validGList d gs = true := by
      rw [show validG d (.collection gs) = (cntOk gs && validGList d gs) from rfl,
        Bool.and_eq_true] at hv
      exact hv
    have hvmem := validGList_mem hv2.2
    have hsh : wkbBytes d (.collection gs) ++ rest =
        wkbHdr .geometrycollection d ++ (u32le gs.length ++
          ((wkbList d gs).flatten ++ rest)) := by
      simp only [wkbBytes, List.append_assoc]
    rw [hsh] at hfuel ⊢
    have h2 : rdGeoms f d gs.length ((wkbList d gs).flatten ++ rest) = .ok (gs, rest) := by
      refine rdGeoms_ser gs
        (fun g hg rest2 fuel2 hle => hih g hg d (hvmem g hg) rest2 fuel2 hle) rest f ?_
      simp only [List.length_append, wkbHdr_length, u32le_length] at hfuel ⊢
      omega
    rw [pWkb_run_collection f _ _ false d (rdHdr_ser .geometrycollection d (by decide) _)]
    simp [rdU32_ser (cntOk_lt hv2.1), h2]

/-- The full WKB pipeline parses back exactly what it serialized. -/
theorem parseWkb_ser (d : Dimensions) (g : Geom) (hv : validG d g = true) :
    parseWkb (serializeWkb d g) = .ok (g.kindOf, d, g) := by
  have h := pWkbGeom_ser g d hv [] ((wkbBytes d g).length + 1)
    (by rw [List.append_nil]; exact Nat.le_succ _)
  rw [List.append_nil] at h
  show parseWkb (wkbBytes d g) = _
  unfold parseWkb
  rw [h]

/-- C1: for every dimension set and every geometry valid under it (including
EMPTY geometries and all four dimension variants), serializing to WKT or to
WKB and parsing the result back yields the original nested data structurally,
along with its kind and dimensions, for both encodings. -/
theorem claim_C1_codec_roundtrip (d : Dimensions) (g : Geom) (hv : validG d g = true) :
    parseWkt (serializeWkt d g) = .ok (g.kindOf, d, g) ∧
    parseWkb (serializeWkb d g) = .ok (g.kindOf, d, g) :=
  ⟨parseWkt_ser d g hv, parseWkb_ser d g hv⟩

theorem claim_C1_codec_roundtrip_witness :
    validG .xyzm (Geom.collection
      [.point (some [7, 8, 9, 10]), .point none, .multipoint [[3, 4, 5, 6]]]) = true ∧
    parseWkt (serializeWkt .xyzm (Geom.collection
      [.point (some [7, 8, 9, 10]), .point none, .multipoint [[3, 4, 5, 6]]])) =
      .ok (.geometrycollection, .xyzm, Geom.collection
        [.point (some [7, 8, 9, 10]), .point none, .multipoint [[3, 4, 5, 6]]]) ∧
    parseWkb (serializeWkb .xyzm (Geom.collection
      [.point (some [7, 8, 9, 10]), .point none, .multipoint [[3, 4, 5, 6]]])) =
      .ok (.geometrycollection, .xyzm, Geom.collection
        [.point (some [7, 8, 9, 10]), .point none, .multipoint [[3, 4, 5, 6]]]) := by
  have h := claim_C1_codec_roundtrip .xyzm
    (Geom.collection [.point (some [7, 8, 9, 10]), .point none, .multipoint [[3, 4, 5, 6]]])
    (by decide)
  exact ⟨by decide, h.1, h.2⟩

/-- C7: parsing the malformed WKT input POINT (0 1 (missing closing
parenthesis) fails with a ParseError; a bad keyword, a wrong coordinate arity
for the declared dimensions, and unbalanced closing parentheses also fail;
and in general any tokens trailing a well-formed geometry fail the parse. -/
theorem claim_C7_malformed_errors :
    (∃ e, parseWkt "POINT (0 1" = .error e) ∧
    (∃ e, parseWkt "FROB (0 1)" = .error e) ∧
    (∃ e, parseWkt "POINT Z (0 1)" = .error e) ∧
    (∃ e, parseWkt "POINT (0 1))" = .error e) ∧
    ∀ (d : Dimensions) (g : Geom), validG d g = true → ∀ (t : Tok) (ts : List Tok),
      parseWktToks (wktToks d g ++ t :: ts) = .error .trailing := by
  refine ⟨⟨.unexpectedEnd, rfl⟩, ⟨.badKeyword, rfl⟩, ⟨.arity, rfl⟩, ⟨.trailing, rfl⟩, ?_⟩
  intro d g hvg t ts
  have h := pGeom_ser g d hvg (t :: ts) ((wktToks d g ++ t :: ts).length + 1)
    (Nat.le_succ _)
  unfold parseWktToks
  rw [h]

theorem claim_C7_malformed_errors_witness :
    validG .xy (Geom.point (some [5, 6])) = true ∧
    parseWktToks (wktToks .xy (Geom.point (some [5, 6])) ++ Tok.rp :: []) =
      .error .trailing := by
  refine ⟨by decide, ?_⟩
  exact claim_C7_malformed_errors.2.2.2.2 .xy (Geom.point (some [5, 6])) (by decide)
    Tok.rp []

end GeoArrow
